import Mathlib

/-!
Shallow embedding of `src/lru_cache.h` (namespace `LRU`): the single-shard
engine `LRUCache<Key, Value>` and the 16-way sharded router `SharedLRUCache`.

Heap-allocated `LRUHandle*` pointers are modelled as natural-number ids into
an explicit heap (an association list id ↦ handle record).  `std::list`
becomes a `List Nat` of ids (front = `begin()`), `std::unordered_map` an
association list key ↦ id.  `delete` removes the id from the heap; any C++
dereference of a pointer that is not in the heap (a freed handle) is
undefined behaviour and the corresponding operation of the model returns
`none`.  `assert` failure also returns `none`.
-/

namespace LRUModel

/-- Mirrors `LRUCache::LRUHandle`: key, value, reference count
(`refs`, initialised to 2 at creation) and charge. -/
structure LRUHandle (K V : Type) where
  key : K
  value : V
  refs : Nat
  charge : Nat
deriving Repr

/-- State of one `LRUCache` shard: `usage_`, `capacity_`, the list `lru_`
(front = most recently used), the map `table_`, plus the heap of live
handles and a fresh-id counter modelling the allocator. -/
structure CacheState (K V : Type) where
  usage : Nat
  capacity : Nat
  lru : List Nat
  table : List (K × Nat)
  heap : List (Nat × LRUHandle K V)
  nextId : Nat
deriving Repr

/-- Association-list find, modelling `find` on `std::unordered_map` keyed
maps (the key→iterator table and the id→record heap alike). -/
def afind {A B : Type} [DecidableEq A] : List (A × B) → A → Option B
  | [], _ => none
  | (a', b) :: rest, a => if a' = a then some b else afind rest a

/-- Association-list erase of the (unique) binding of a key. -/
def aerase {A B : Type} [DecidableEq A] : List (A × B) → A → List (A × B)
  | [], _ => []
  | (a', b) :: rest, a => if a' = a then rest else (a', b) :: aerase rest a

/-- Association-list in-place update of the value bound to a key. -/
def aset {A B : Type} [DecidableEq A] : List (A × B) → A → B → List (A × B)
  | [], _, _ => []
  | (a', b') :: rest, a, b => if a' = a then (a, b) :: rest else (a', b') :: aset rest a b

/-- Sum of a value projection over an association list. -/
def asum {A B : Type} (f : B → Nat) (t : List (A × B)) : Nat :=
  (t.map fun p => f p.2).sum

section AssocLemmas

variable {A B : Type} [DecidableEq A]

theorem afind_eq_none {t : List (A × B)} {a : A} :
    afind t a = none ↔ ∀ p ∈ t, p.1 ≠ a := by
  induction t with
  | nil => simp [afind]
  | cons p rest ih =>
    obtain ⟨a', b⟩ := p
    by_cases h : a' = a <;> simp [afind, h, ih]

theorem afind_mem {t : List (A × B)} {a : A} {b : B}
    (h : afind t a = some b) : (a, b) ∈ t := by
  induction t with
  | nil => simp [afind] at h
  | cons p rest ih =>
    obtain ⟨a', b'⟩ := p
    by_cases h' : a' = a
    · subst h'
      simp [afind] at h
      simp [h]
    · simp [afind, h'] at h
      exact List.mem_cons_of_mem _ (ih h)

theorem afind_of_mem {t : List (A × B)} {a : A} {b : B}
    (hnd : (t.map Prod.fst).Nodup) (h : (a, b) ∈ t) : afind t a = some b := by
  induction t with
  | nil => simp at h
  | cons p rest ih =>
    obtain ⟨a', b'⟩ := p
    simp only [List.map_cons, List.nodup_cons] at hnd
    rcases List.mem_cons.mp h with h | h
    · cases h
      simp [afind]
    · have hne : a' ≠ a := by
        intro he
        subst he
        exact hnd.1 (List.mem_map.mpr ⟨(a', b), h, rfl⟩)
      simp [afind, hne, ih hnd.2 h]

theorem aerase_sublist (t : List (A × B)) (a : A) : List.Sublist (aerase t a) t := by
  induction t with
  | nil => simp [aerase]
  | cons p rest ih =>
    obtain ⟨a', b⟩ := p
    by_cases h : a' = a
    · rw [aerase, if_pos h]
      exact List.sublist_cons_self _ _
    · rw [aerase, if_neg h]
      exact ih.cons₂ _

theorem mem_aerase {t : List (A × B)} {a : A} {p : A × B}
    (h : p ∈ aerase t a) : p ∈ t :=
  (aerase_sublist t a).subset h

theorem afind_aerase_self {t : List (A × B)} {a : A}
    (hnd : (t.map Prod.fst).Nodup) : afind (aerase t a) a = none := by
  induction t with
  | nil => simp [aerase, afind]
  | cons p rest ih =>
    obtain ⟨a', b⟩ := p
    simp only [List.map_cons, List.nodup_cons] at hnd
    by_cases h : a' = a
    · subst h
      rw [aerase, if_pos rfl]
      rw [afind_eq_none]
      intro q hq he
      exact hnd.1 (List.mem_map.mpr ⟨q, hq, he⟩)
    · rw [aerase, if_neg h, afind, if_neg h]
      exact ih hnd.2

theorem afind_aerase_ne {t : List (A × B)} {a a' : A} (h : a' ≠ a) :
    afind (aerase t a) a' = afind t a' := by
  induction t with
  | nil => simp [aerase]
  | cons p rest ih =>
    obtain ⟨a'', b⟩ := p
    by_cases h2 : a'' = a
    · subst h2
      have : a'' ≠ a' := fun he => h he.symm
      rw [aerase, if_pos rfl, afind, if_neg this]
    · rw [aerase, if_neg h2, afind, afind]
      by_cases h3 : a'' = a' <;> simp [h3, ih]

theorem keys_aset {t : List (A × B)} {a : A} {b : B} :
    (aset t a b).map Prod.fst = t.map Prod.fst := by
  induction t with
  | nil => simp [aset]
  | cons p rest ih =>
    obtain ⟨a', b'⟩ := p
    by_cases h : a' = a
    · subst h
      simp [aset]
    · simp [aset, h, ih]

theorem afind_aset_self {t : List (A × B)} {a : A} {b b' : B}
    (h : afind t a = some b') : afind (aset t a b) a = some b := by
  induction t with
  | nil => simp [afind] at h
  | cons p rest ih =>
    obtain ⟨a'', b''⟩ := p
    by_cases h2 : a'' = a
    · subst h2
      rw [aset, if_pos rfl, afind, if_pos rfl]
    · rw [afind, if_neg h2] at h
      rw [aset, if_neg h2, afind, if_neg h2]
      exact ih h

theorem afind_aset_ne {t : List (A × B)} {a a' : A} {b : B} (h : a' ≠ a) :
    afind (aset t a b) a' = afind t a' := by
  induction t with
  | nil => simp [aset]
  | cons p rest ih =>
    obtain ⟨a'', b''⟩ := p
    by_cases h2 : a'' = a
    · subst h2
      have h3 : a'' ≠ a' := fun he => h he.symm
      rw [aset, if_pos rfl, afind, if_neg h3, afind, if_neg h3]
    · rw [aset, if_neg h2, afind, afind]
      by_cases h3 : a'' = a' <;> simp [h3, ih]

theorem mem_aset {t : List (A × B)} {a : A} {b : B} {p : A × B}
    (h : p ∈ aset t a b) : p ∈ t ∨ p = (a, b) := by
  induction t with
  | nil => simp [aset] at h
  | cons q rest ih =>
    obtain ⟨a', b'⟩ := q
    by_cases h2 : a' = a
    · subst h2
      rw [aset, if_pos rfl] at h
      rcases List.mem_cons.mp h with h | h
      · exact Or.inr h
      · exact Or.inl (List.mem_cons_of_mem _ h)
    · rw [aset, if_neg h2] at h
      rcases List.mem_cons.mp h with h | h
      · exact Or.inl (h ▸ List.mem_cons_self _ _)
      · rcases ih h with h | h
        · exact Or.inl (List.mem_cons_of_mem _ h)
        · exact Or.inr h

theorem afind_cons_self {t : List (A × B)} {a : A} {b : B} :
    afind ((a, b) :: t) a = some b := by
  simp [afind]

theorem afind_cons_ne {t : List (A × B)} {a a' : A} {b : B} (h : a' ≠ a) :
    afind ((a, b) :: t) a' = afind t a' := by
  rw [afind, if_neg (fun he => h he.symm)]

theorem asum_cons {t : List (A × B)} {a : A} {b : B} {f : B → Nat} :
    asum f ((a, b) :: t) = f b + asum f t := by
  simp [asum]

theorem not_mem_aerase_self {t : List (A × B)} {a : A} {b : B}
    (hnd : (t.map Prod.fst).Nodup) : (a, b) ∉ aerase t a := by
  intro hmem
  have h := afind_aerase_self (t := t) (a := a) hnd
  rw [afind_eq_none] at h
  exact h (a, b) hmem rfl

theorem asum_aerase {t : List (A × B)} {a : A} {b : B} (f : B → Nat)
    (hnd : (t.map Prod.fst).Nodup) (h : afind t a = some b) :
    asum f t = f b + asum f (aerase t a) := by
  induction t with
  | nil => simp [afind] at h
  | cons p rest ih =>
    obtain ⟨a', b'⟩ := p
    simp only [List.map_cons, List.nodup_cons] at hnd
    by_cases h2 : a' = a
    · subst h2
      rw [afind, if_pos rfl] at h
      cases h
      rw [aerase, if_pos rfl]
      simp [asum]
    · rw [afind, if_neg h2] at h
      rw [aerase, if_neg h2]
      simp only [asum, List.map_cons, List.sum_cons]
      have := ih hnd.2 h
      simp only [asum] at this
      omega

theorem asum_aset {t : List (A × B)} {a : A} {b b' : B} (f : B → Nat)
    (h : afind t a = some b') (hfb : f b = f b') :
    asum f (aset t a b) = asum f t := by
  induction t with
  | nil => simp [afind] at h
  | cons p rest ih =>
    obtain ⟨a'', b''⟩ := p
    by_cases h2 : a'' = a
    · subst h2
      rw [afind, if_pos rfl] at h
      cases h
      rw [aset, if_pos rfl]
      simp [asum, hfb]
    · rw [afind, if_neg h2] at h
      rw [aset, if_neg h2]
      simp only [asum, List.map_cons, List.sum_cons]
      have := ih h
      simp only [asum] at this
      omega

theorem sum_le_of_sublist {l₁ l₂ : List Nat} (h : List.Sublist l₁ l₂) : l₁.sum ≤ l₂.sum := by
  induction h with
  | slnil => simp
  | cons a _ ih => simp; omega
  | cons₂ a _ ih => simp; omega

theorem asum_le_of_sublist {t₁ t₂ : List (A × B)} (f : B → Nat) (h : List.Sublist t₁ t₂) :
    asum f t₁ ≤ asum f t₂ :=
  sum_le_of_sublist (h.map _)

end AssocLemmas

variable {K V : Type} [DecidableEq K]

/-- `LRUCache::Release(handle)`:
`assert(handle->refs > 0); --handle->refs;
 if (handle->refs == 0) { usage_ -= handle->charge; delete handle; }`.
`none` models a fatal precondition violation (null/dangling handle or an
already-zero reference count). -/
def releaseId (s : CacheState K V) (id : Nat) : Option (CacheState K V) :=
  match afind s.heap id with
  | none => none
  | some h =>
    if h.refs = 0 then none
    else if h.refs = 1 then
      some { s with usage := s.usage - h.charge, heap := aerase s.heap id }
    else
      some { s with heap := aset s.heap id { h with refs := h.refs - 1 } }

/-- One iteration of `Insert`'s eviction loop body:
`LRUHandle* back = lru_.back(); table_.erase(back->key); lru_.pop_back();
 Release(back);`. -/
def evictBody (s : CacheState K V) : Option (CacheState K V) :=
  match s.lru.getLast? with
  | none => none
  | some back =>
    match afind s.heap back with
    | none => none
    | some h =>
      releaseId { s with table := aerase s.table h.key, lru := s.lru.dropLast } back

theorem releaseId_lru {s s' : CacheState K V} {id : Nat}
    (h : releaseId s id = some s') : s'.lru = s.lru := by
  unfold releaseId at h
  cases hf : afind s.heap id with
  | none => simp [hf] at h
  | some e =>
    rw [hf] at h
    by_cases h0 : e.refs = 0
    · simp [h0] at h
    · by_cases h1 : e.refs = 1
      · simp [h0, h1] at h
        cases h; rfl
      · simp [h0, h1] at h
        cases h; rfl

theorem evictBody_lru {s s' : CacheState K V}
    (h : evictBody s = some s') : s'.lru = s.lru.dropLast := by
  unfold evictBody at h
  cases hl : s.lru.getLast? with
  | none => simp [hl] at h
  | some back =>
    simp only [hl] at h
    cases hf : afind s.heap back with
    | none => simp [hf] at h
    | some e =>
      simp only [hf] at h
      exact releaseId_lru h

/-- Fuel-indexed encoding of `while (usage_ > capacity_ && !lru_.empty())`
in `Insert`.  Every iteration pops one element off `lru_`, so the loop
runs at most `lru_.size()` times; `evictLoop` below runs it with exactly
that fuel, and `evictLoopF_fuel` shows the result does not depend on the
fuel as long as it is sufficient, so this is the C++ `while` loop. -/
def evictLoopF : Nat → CacheState K V → Option (CacheState K V)
  | fuel, s =>
    if s.capacity < s.usage ∧ s.lru ≠ [] then
      match evictBody s with
      | none => none
      | some s1 =>
        match fuel with
        | 0 => none
        | fuel' + 1 => evictLoopF fuel' s1
    else some s

/-- `while (usage_ > capacity_ && !lru_.empty()) { ... }` in `Insert`. -/
def evictLoop (s : CacheState K V) : Option (CacheState K V) :=
  evictLoopF s.lru.length s

theorem evictLoopF_fuel : ∀ (fuel fuel' : Nat) {s : CacheState K V},
    s.lru.length ≤ fuel → s.lru.length ≤ fuel' →
    evictLoopF fuel s = evictLoopF fuel' s := by
  intro fuel
  induction fuel with
  | zero =>
    intro fuel' s hle hle'
    rw [evictLoopF, evictLoopF]
    split
    next hcond =>
      exact absurd (List.length_eq_zero.mp (Nat.le_zero.mp hle)) hcond.2
    next => rfl
  | succ fuel ih =>
    intro fuel' s hle hle'
    rw [evictLoopF, evictLoopF]
    split
    next hcond =>
      cases hb : evictBody s with
      | none => rfl
      | some s1 =>
        have hlen1 : s1.lru.length ≤ fuel ∧ s1.lru.length ≤ fuel' - 1 := by
          rw [evictBody_lru hb, List.length_dropLast]
          have h0 : s.lru.length ≠ 0 := fun hz =>
            hcond.2 (List.length_eq_zero.mp hz)
          omega
        cases fuel' with
        | zero =>
          exact absurd (List.length_eq_zero.mp (Nat.le_zero.mp hle')) hcond.2
        | succ fuel'' =>
          have := ih fuel'' (s := s1) hlen1.1 (by omega)
          exact this
    next => rfl

/-- `LRUCache::Insert(key, value, charge)`.  Returns the new state together
with the id of the handle handed back to the caller. -/
def stepInsert (s : CacheState K V) (k : K) (v : V) (c : Nat) :
    Option (CacheState K V × Nat) :=
  let handle : LRUHandle K V := ⟨k, v, 2, c⟩
  let n := s.nextId
  let afterOld : Option (CacheState K V) :=
    match afind s.table k with
    | none => some s
    | some oldId =>
      releaseId { s with lru := s.lru.erase oldId, table := aerase s.table k } oldId
  match afterOld with
  | none => none
  | some s1 =>
    let s2 : CacheState K V :=
      { s1 with
        lru := n :: s1.lru
        table := (k, n) :: s1.table
        heap := (n, handle) :: s1.heap
        usage := s1.usage + c
        nextId := s.nextId + 1 }
    match evictLoop s2 with
    | none => none
    | some s3 => some (s3, n)

/-- `LRUCache::Lookup(key)`.  `some (s, none)` is the not-found result
(`nullptr`); `some (s, some id)` hands back a pinned handle. -/
def stepLookup (s : CacheState K V) (k : K) :
    Option (CacheState K V × Option Nat) :=
  match afind s.table k with
  | none => some (s, none)
  | some id =>
    match afind s.heap id with
    | none => none
    | some h =>
      let lru' := if s.lru.head? = some id then s.lru else id :: s.lru.erase id
      some ({ s with lru := lru', heap := aset s.heap id { h with refs := h.refs + 1 } },
            some id)

/-- `LRUCache::Erase(key)`: `Release(*it); lru_.erase(it); table_.erase(iter);`
when the key is registered, no-op otherwise. -/
def stepErase (s : CacheState K V) (k : K) : Option (CacheState K V) :=
  match afind s.table k with
  | none => some s
  | some id =>
    match releaseId s id with
    | none => none
    | some s1 => some { s1 with lru := s1.lru.erase id, table := aerase s1.table k }

/-- The loop body of `LRUCache::Prune` over the snapshot of `lru_`
(`lru_` itself is never modified by `Prune`). -/
def pruneAux (s : CacheState K V) (l : List Nat) : Option (CacheState K V) :=
  match l with
  | [] => some s
  | id :: rest =>
    match afind s.heap id with
    | none => none
    | some h =>
      if h.refs = 1 then
        let t1 := match afind s.table h.key with
                  | some _ => aerase s.table h.key
                  | none => s.table
        match releaseId { s with table := t1 } id with
        | none => none
        | some s2 => pruneAux s2 rest
      else pruneAux s rest

/-- `LRUCache::Prune()`. -/
def stepPrune (s : CacheState K V) : Option (CacheState K V) :=
  pruneAux s s.lru

/-- The public operations of one shard. -/
inductive Op (K V : Type) where
  | insert (k : K) (v : V) (c : Nat)
  | lookup (k : K)
  | release (id : Nat)
  | erase (k : K)
  | prune
deriving Repr, DecidableEq

/-- Small-step semantics of one shard operation; `none` models an assertion
failure or undefined behaviour (dereference of a freed handle). -/
def step (s : CacheState K V) : Op K V → Option (CacheState K V)
  | .insert k v c => (stepInsert s k v c).map Prod.fst
  | .lookup k => (stepLookup s k).map Prod.fst
  | .release id => releaseId s id
  | .erase k => stepErase s k
  | .prune => stepPrune s

/-- Run a list of operations from a given state. -/
def runFrom (s : CacheState K V) : List (Op K V) → Option (CacheState K V)
  | [] => some s
  | op :: ops =>
    match step s op with
    | none => none
    | some s' => runFrom s' ops

/-- The freshly constructed shard: default constructor plus `set_capacity`. -/
def initState (K V : Type) (c : Nat) : CacheState K V :=
  ⟨0, c, [], [], [], 0⟩

/-- All states a shard reaches after a sequence of successfully completed
operations starting from an empty shard of capacity `c`. -/
def runTrace (K V : Type) [DecidableEq K] (c : Nat) (ops : List (Op K V)) :
    Option (CacheState K V) :=
  runFrom (initState K V c) ops

/-- `usage_`'s intended meaning: sum of the charges of all not-yet-reclaimed
handles. -/
def heapCharges (h : List (Nat × LRUHandle K V)) : Nat :=
  asum LRUHandle.charge h

/-- Sum of charges of the entries currently reachable through the given
key index. -/
def regC (hp : List (Nat × LRUHandle K V)) (t : List (K × Nat)) : Nat :=
  (t.map fun p =>
    match afind hp p.2 with
    | some h => h.charge
    | none => 0).sum

/-- Sum of charges of all currently registered (key-reachable) entries. -/
def registeredCharge (s : CacheState K V) : Nat :=
  regC s.heap s.table

/-- Well-formedness of a shard state.  Every conjunct is an invariant of the
C++ data structure: `usage_` equals the total charge of unreclaimed handles,
keys and ids are duplicate-free, every registered entry sits in the ordered
sequence under its own key, live handles have a positive reference count,
and live ids in the sequence are registered (an id in `lru_` whose handle
was freed — the `Prune` defect — is tolerated and simply dead). -/
structure WF (s : CacheState K V) : Prop where
  usage_eq : s.usage = heapCharges s.heap
  tkeys_nd : (s.table.map Prod.fst).Nodup
  tids_nd : (s.table.map Prod.snd).Nodup
  lru_nd : s.lru.Nodup
  hids_nd : (s.heap.map Prod.fst).Nodup
  treg_lru : ∀ p ∈ s.table, p.2 ∈ s.lru
  tkey_match : ∀ p ∈ s.table, ∀ h, afind s.heap p.2 = some h → h.key = p.1
  refs_pos : ∀ q ∈ s.heap, 1 ≤ q.2.refs
  lru_lt : ∀ id ∈ s.lru, id < s.nextId
  heap_lt : ∀ q ∈ s.heap, q.1 < s.nextId
  lru_reg : ∀ id ∈ s.lru, ∀ h, afind s.heap id = some h →
    afind s.table h.key = some id

theorem WF.find_key {s : CacheState K V} (w : WF s) {k : K} {id : Nat}
    {h : LRUHandle K V} (ht : afind s.table k = some id)
    (hh : afind s.heap id = some h) : h.key = k :=
  w.tkey_match (k, id) (afind_mem ht) h hh

theorem WF.find_lru {s : CacheState K V} (w : WF s) {k : K} {id : Nat}
    (ht : afind s.table k = some id) : id ∈ s.lru :=
  w.treg_lru (k, id) (afind_mem ht)

theorem WF.find_refs {s : CacheState K V} (w : WF s) {id : Nat}
    {h : LRUHandle K V} (hh : afind s.heap id = some h) : 1 ≤ h.refs :=
  w.refs_pos (id, h) (afind_mem hh)

theorem regC_le {hp : List (Nat × LRUHandle K V)} {t : List (K × Nat)}
    (hnd : (t.map Prod.snd).Nodup) (hh : (hp.map Prod.fst).Nodup) :
    regC hp t ≤ heapCharges hp := by
  induction t generalizing hp with
  | nil => simp [regC]
  | cons p rest ih =>
    obtain ⟨k, id⟩ := p
    simp only [List.map_cons, List.nodup_cons] at hnd
    cases hf : afind hp id with
    | none =>
      simp only [regC, List.map_cons, List.sum_cons, hf]
      have := ih hnd.2 hh
      simp only [regC] at this
      omega
    | some e =>
      have hsum := asum_aerase LRUHandle.charge hh hf
      have hrest : regC hp rest = regC (aerase hp id) rest := by
        simp only [regC]
        congr 1
        apply List.map_congr_left
        intro q hq
        have hne : q.2 ≠ id := fun he =>
          hnd.1 (List.mem_map.mpr ⟨q, hq, he⟩)
        rw [afind_aerase_ne hne]
      have hnd2 : ((aerase hp id).map Prod.fst).Nodup :=
        ((aerase_sublist hp id).map Prod.fst).nodup hh
      have hle := ih hnd.2 hnd2
      have hcons : regC hp ((k, id) :: rest) = e.charge + regC hp rest := by
        simp only [regC, List.map_cons, List.sum_cons, hf]
      rw [hcons, hrest]
      simp only [heapCharges] at hsum hle ⊢
      omega

theorem registeredCharge_le_usage {s : CacheState K V} (w : WF s) :
    registeredCharge s ≤ s.usage := by
  rw [w.usage_eq]
  exact regC_le w.tids_nd w.hids_nd

theorem releaseId_none_iff {s : CacheState K V} {id : Nat} :
    releaseId s id = none ↔
      afind s.heap id = none ∨
      ∃ h, afind s.heap id = some h ∧ h.refs = 0 := by
  unfold releaseId
  cases hf : afind s.heap id with
  | none => simp
  | some h =>
    by_cases h0 : h.refs = 0
    · simp [h0]
    · by_cases h1 : h.refs = 1 <;> simp [h0, h1]

theorem releaseId_dead {s : CacheState K V} {id : Nat} {h : LRUHandle K V}
    (hf : afind s.heap id = some h) (h1 : h.refs = 1) :
    releaseId s id =
      some { s with usage := s.usage - h.charge, heap := aerase s.heap id } := by
  unfold releaseId
  rw [hf]
  simp [h1]

theorem releaseId_live {s : CacheState K V} {id : Nat} {h : LRUHandle K V}
    (hf : afind s.heap id = some h) (h2 : 2 ≤ h.refs) :
    releaseId s id =
      some { s with heap := aset s.heap id { h with refs := h.refs - 1 } } := by
  unfold releaseId
  rw [hf]
  have h0 : ¬ h.refs = 0 := by omega
  have h1 : ¬ h.refs = 1 := by omega
  simp [h0, h1]

theorem mem_dropLast_iff {α : Type} {l : List α} {b : α} (hnd : l.Nodup)
    (hb : l.getLast? = some b) :
    ∀ x, x ∈ l.dropLast ↔ (x ∈ l ∧ x ≠ b) := by
  obtain ⟨hne, hbe⟩ := List.mem_getLast?_eq_getLast hb
  have hdec : l.dropLast ++ [b] = l := by
    rw [hbe]
    exact List.dropLast_append_getLast hne
  intro x
  constructor
  · intro hx
    refine ⟨by rw [← hdec]; exact List.mem_append_left _ hx, ?_⟩
    intro he
    subst he
    rw [← hdec] at hnd
    rcases List.nodup_append.mp hnd with ⟨-, -, hdisj⟩
    exact hdisj hx (List.mem_singleton_self x)
  · rintro ⟨hx, hne2⟩
    rw [← hdec] at hx
    rcases List.mem_append.mp hx with h | h
    · exact h
    · rw [List.mem_singleton] at h
      exact absurd h hne2

/-- Unregistering a registered entry from the table and (possibly) the
sequence, then freeing it because its internal pin was the last one,
preserves well-formedness.  `lru'` is the new sequence: it must lie inside
the old one and keep every id other than the released one (it may or may
not retain the released id itself, covering `Insert`/`Erase`, the eviction
loop, and `Prune`'s sequence-preserving behaviour alike). -/
theorem WF_unreg_dead {s : CacheState K V} {id : Nat} {h : LRUHandle K V}
    {lru' : List Nat}
    (w : WF s) (hf : afind s.heap id = some h)
    (hreg : afind s.table h.key = some id)
    (hsub : ∀ x ∈ lru', x ∈ s.lru)
    (hsup : ∀ x ∈ s.lru, x ≠ id → x ∈ lru')
    (hnd' : lru'.Nodup) :
    WF ⟨s.usage - h.charge, s.capacity, lru', aerase s.table h.key,
        aerase s.heap id, s.nextId⟩ := by
  have hmem_tbl : ∀ p : K × Nat, p ∈ aerase s.table h.key → p.2 ≠ id := by
    intro p hp hpid
    have hpt := mem_aerase hp
    have hkid : (h.key, id) ∈ s.table := afind_mem hreg
    have hpe : p = (h.key, id) :=
      List.inj_on_of_nodup_map w.tids_nd hpt hkid (by simp [hpid])
    rw [hpe] at hp
    exact not_mem_aerase_self w.tkeys_nd hp
  refine ⟨?_, ?_, ?_, hnd', ?_, ?_, ?_, ?_, ?_, ?_, ?_⟩
  · show s.usage - h.charge = heapCharges (aerase s.heap id)
    have hs := asum_aerase LRUHandle.charge w.hids_nd hf
    have hu := w.usage_eq
    simp only [heapCharges] at hs hu ⊢
    omega
  · exact ((aerase_sublist s.table h.key).map Prod.fst).nodup w.tkeys_nd
  · exact ((aerase_sublist s.table h.key).map Prod.snd).nodup w.tids_nd
  · exact ((aerase_sublist s.heap id).map Prod.fst).nodup w.hids_nd
  · intro p hp
    exact hsup _ (w.treg_lru p (mem_aerase hp)) (hmem_tbl p hp)
  · intro p hp h' hh'
    rw [afind_aerase_ne (hmem_tbl p hp)] at hh'
    exact w.tkey_match p (mem_aerase hp) h' hh'
  · intro q hq
    exact w.refs_pos q (mem_aerase hq)
  · intro x hx
    exact w.lru_lt x (hsub x hx)
  · intro q hq
    exact w.heap_lt q (mem_aerase hq)
  · intro x hx h' hh'
    have hxid : x ≠ id := by
      intro he
      subst he
      rw [afind_aerase_self w.hids_nd] at hh'
      cases hh'
    rw [afind_aerase_ne hxid] at hh'
    have hxr := w.lru_reg x (hsub x hx) h' hh'
    have hkne : h'.key ≠ h.key := by
      intro he
      rw [he] at hxr
      rw [hreg] at hxr
      exact hxid (Option.some.inj hxr).symm
    rw [afind_aerase_ne hkne]
    exact hxr

/-- Unregistering a registered entry whose internal pin is not the last one:
the entry survives (with its reference count decremented) but becomes
unreachable; well-formedness is preserved provided the id also left the
sequence. -/
theorem WF_unreg_live {s : CacheState K V} {id : Nat} {h : LRUHandle K V}
    {lru' : List Nat}
    (w : WF s) (hf : afind s.heap id = some h)
    (hreg : afind s.table h.key = some id)
    (hrefs : 2 ≤ h.refs)
    (hsub : ∀ x ∈ lru', x ∈ s.lru)
    (hsup : ∀ x ∈ s.lru, x ≠ id → x ∈ lru')
    (hnotin : id ∉ lru')
    (hnd' : lru'.Nodup) :
    WF ⟨s.usage, s.capacity, lru', aerase s.table h.key,
        aset s.heap id { h with refs := h.refs - 1 }, s.nextId⟩ := by
  have hmem_tbl : ∀ p : K × Nat, p ∈ aerase s.table h.key → p.2 ≠ id := by
    intro p hp hpid
    have hpt := mem_aerase hp
    have hkid : (h.key, id) ∈ s.table := afind_mem hreg
    have hpe : p = (h.key, id) :=
      List.inj_on_of_nodup_map w.tids_nd hpt hkid (by simp [hpid])
    rw [hpe] at hp
    exact not_mem_aerase_self w.tkeys_nd hp
  refine ⟨?_, ?_, ?_, hnd', ?_, ?_, ?_, ?_, ?_, ?_, ?_⟩
  · show s.usage = heapCharges (aset s.heap id { h with refs := h.refs - 1 })
    have hs := asum_aset (b := { h with refs := h.refs - 1 }) LRUHandle.charge hf rfl
    have hu := w.usage_eq
    simp only [heapCharges] at hu ⊢
    rw [hs]
    exact hu
  · exact ((aerase_sublist s.table h.key).map Prod.fst).nodup w.tkeys_nd
  · exact ((aerase_sublist s.table h.key).map Prod.snd).nodup w.tids_nd
  · show ((aset s.heap id { h with refs := h.refs - 1 }).map Prod.fst).Nodup
    rw [keys_aset]
    exact w.hids_nd
  · intro p hp
    exact hsup _ (w.treg_lru p (mem_aerase hp)) (hmem_tbl p hp)
  · intro p hp h' hh'
    rw [afind_aset_ne (hmem_tbl p hp)] at hh'
    exact w.tkey_match p (mem_aerase hp) h' hh'
  · intro q hq
    rcases mem_aset hq with hq | hq
    · exact w.refs_pos q hq
    · rw [hq]
      dsimp only
      omega
  · intro x hx
    exact w.lru_lt x (hsub x hx)
  · intro q hq
    rcases mem_aset hq with hq | hq
    · exact w.heap_lt q hq
    · rw [hq]
      exact w.heap_lt (id, h) (afind_mem hf)
  · intro x hx h' hh'
    have hxid : x ≠ id := fun he => hnotin (he ▸ hx)
    rw [afind_aset_ne hxid] at hh'
    have hxr := w.lru_reg x (hsub x hx) h' hh'
    have hkne : h'.key ≠ h.key := by
      intro he
      rw [he] at hxr
      rw [hreg] at hxr
      exact hxid (Option.some.inj hxr).symm
    rw [afind_aerase_ne hkne]
    exact hxr

/-- One iteration of the eviction loop: well-formedness is preserved, the
back element leaves the sequence, usage does not grow, the heap is
unchanged at every id that survives in the sequence or was never in it,
and every registration whose id survives is untouched. -/
theorem evictBody_spec {s s' : CacheState K V} (w : WF s)
    (hb : evictBody s = some s') :
    WF s' ∧ s'.capacity = s.capacity ∧ s'.nextId = s.nextId ∧
    s'.lru = s.lru.dropLast ∧ s'.usage ≤ s.usage ∧
    (∀ id, (id ∈ s'.lru ∨ id ∉ s.lru) → afind s'.heap id = afind s.heap id) ∧
    (∀ k' i, afind s.table k' = some i → i ∈ s'.lru → afind s'.table k' = some i) := by
  unfold evictBody at hb
  cases hl : s.lru.getLast? with
  | none => simp [hl] at hb
  | some back =>
    simp only [hl] at hb
    cases hf : afind s.heap back with
    | none => simp [hf] at hb
    | some h =>
      simp only [hf] at hb
      obtain ⟨hlne, hbe⟩ := List.mem_getLast?_eq_getLast hl
      have hback : back ∈ s.lru := by
        rw [hbe]
        exact List.getLast_mem hlne
      have hreg : afind s.table h.key = some back := w.lru_reg back hback h hf
      have hmemiff := mem_dropLast_iff w.lru_nd hl
      have hnd' : s.lru.dropLast.Nodup :=
        ((List.dropLast_prefix s.lru).sublist).nodup w.lru_nd
      have hsub : ∀ x ∈ s.lru.dropLast, x ∈ s.lru := fun x hx => ((hmemiff x).mp hx).1
      have hsup : ∀ x ∈ s.lru, x ≠ back → x ∈ s.lru.dropLast :=
        fun x hx hne => (hmemiff x).mpr ⟨hx, hne⟩
      have hrefs := w.find_refs hf
      have hkne_of : ∀ k' i, afind s.table k' = some i → i ≠ back → k' ≠ h.key := by
        intro k' i hki hne he
        subst he
        rw [hreg] at hki
        exact hne (Option.some.inj hki).symm
      by_cases hr : h.refs = 1
      · rw [releaseId_dead
          (s := { s with table := aerase s.table h.key, lru := s.lru.dropLast }) hf hr] at hb
        obtain rfl : _ = s' := Option.some.inj hb
        refine ⟨WF_unreg_dead w hf hreg hsub hsup hnd', rfl, rfl, rfl, Nat.sub_le _ _,
          ?_, ?_⟩
        · intro id hid
          have hne : id ≠ back := by
            rcases hid with hid | hid
            · exact ((hmemiff id).mp hid).2
            · exact fun he => hid (he ▸ hback)
          exact afind_aerase_ne hne
        · intro k' i hki hi
          have hne : i ≠ back := ((hmemiff i).mp hi).2
          rw [afind_aerase_ne (hkne_of k' i hki hne)]
          exact hki
      · have hr2 : 2 ≤ h.refs := by omega
        rw [releaseId_live
          (s := { s with table := aerase s.table h.key, lru := s.lru.dropLast }) hf hr2] at hb
        obtain rfl : _ = s' := Option.some.inj hb
        have hnotin : back ∉ s.lru.dropLast := fun hmem => ((hmemiff back).mp hmem).2 rfl
        refine ⟨WF_unreg_live w hf hreg hr2 hsub hsup hnotin hnd', rfl, rfl, rfl,
          Nat.le_refl _, ?_, ?_⟩
        · intro id hid
          have hne : id ≠ back := by
            rcases hid with hid | hid
            · exact ((hmemiff id).mp hid).2
            · exact fun he => hid (he ▸ hback)
          exact afind_aset_ne hne
        · intro k' i hki hi
          have hne : i ≠ back := ((hmemiff i).mp hi).2
          rw [afind_aerase_ne (hkne_of k' i hki hne)]
          exact hki

/-- The eviction loop, fuel-indexed induction core: well-formedness is
preserved, the loop stops with usage within capacity or an empty sequence,
the surviving sequence is a prefix of the original, usage does not grow,
the heap is unchanged at ids that survive or were never in the sequence,
and registrations of surviving ids are untouched. -/
theorem evictLoopF_spec : ∀ (fuel : Nat) {s s' : CacheState K V},
    WF s → evictLoopF fuel s = some s' →
    WF s' ∧ s'.capacity = s.capacity ∧ s'.nextId = s.nextId ∧
    (s'.usage ≤ s'.capacity ∨ s'.lru = []) ∧
    s'.lru <+: s.lru ∧ s'.usage ≤ s.usage ∧
    (∀ id, (id ∈ s'.lru ∨ id ∉ s.lru) → afind s'.heap id = afind s.heap id) ∧
    (∀ k' i, afind s.table k' = some i → i ∈ s'.lru → afind s'.table k' = some i) := by
  intro fuel
  induction fuel with
  | zero =>
    intro s s' w hl
    rw [evictLoopF] at hl
    split at hl
    case isTrue hcond =>
      split at hl
      next heq => exact Option.noConfusion hl
      next s1 heq => exact Option.noConfusion hl
    case isFalse hcond =>
      obtain rfl : s = s' := Option.some.inj hl
      have hpost : s.usage ≤ s.capacity ∨ s.lru = [] := by
        by_cases hu : s.usage ≤ s.capacity
        · exact Or.inl hu
        · right
          by_contra hne
          exact hcond ⟨by omega, hne⟩
      exact ⟨w, rfl, rfl, hpost, List.prefix_refl _, Nat.le_refl _,
        fun id _ => rfl, fun k' i hki _ => hki⟩
  | succ fuel ih =>
    intro s s' w hl
    rw [evictLoopF] at hl
    split at hl
    case isTrue hcond =>
      split at hl
      next heq => exact Option.noConfusion hl
      next s1 heq =>
        have hl' : evictLoopF fuel s1 = some s' := hl
        obtain ⟨w1, hcap1, hnext1, hlru1, husage1, hheap1, htable1⟩ := evictBody_spec w heq
        obtain ⟨w2, hcap2, hnext2, hpost2, hpre2, husage2, hheap2, htable2⟩ :=
          ih w1 hl'
        have hpre : s'.lru <+: s.lru := by
          rw [hlru1] at hpre2
          exact hpre2.trans (List.dropLast_prefix s.lru)
        refine ⟨w2, hcap2.trans hcap1, hnext2.trans hnext1, hpost2, hpre,
          husage2.trans husage1, ?_, ?_⟩
        · intro id hid
          have hid1 : id ∈ s'.lru ∨ id ∉ s1.lru := by
            rcases hid with hid | hid
            · exact Or.inl hid
            · right
              intro hmem
              rw [hlru1] at hmem
              exact hid ((List.dropLast_prefix s.lru).subset hmem)
          have hid0 : id ∈ s1.lru ∨ id ∉ s.lru := by
            rcases hid with hid | hid
            · exact Or.inl (hpre2.subset hid)
            · exact Or.inr hid
          rw [hheap2 id hid1, hheap1 id hid0]
        · intro k' i hki hi
          have hi1 : i ∈ s1.lru := hpre2.subset hi
          exact htable2 k' i (htable1 k' i hki hi1) hi
    case isFalse hcond =>
      obtain rfl : s = s' := Option.some.inj hl
      have hpost : s.usage ≤ s.capacity ∨ s.lru = [] := by
        by_cases hu : s.usage ≤ s.capacity
        · exact Or.inl hu
        · right
          by_contra hne
          exact hcond ⟨by omega, hne⟩
      exact ⟨w, rfl, rfl, hpost, List.prefix_refl _, Nat.le_refl _,
        fun id _ => rfl, fun k' i hki _ => hki⟩

/-- The eviction loop spec at its natural fuel. -/
theorem evictLoop_spec {s s' : CacheState K V} (w : WF s)
    (hl : evictLoop s = some s') :
    WF s' ∧ s'.capacity = s.capacity ∧ s'.nextId = s.nextId ∧
    (s'.usage ≤ s'.capacity ∨ s'.lru = []) ∧
    s'.lru <+: s.lru ∧ s'.usage ≤ s.usage ∧
    (∀ id, (id ∈ s'.lru ∨ id ∉ s.lru) → afind s'.heap id = afind s.heap id) ∧
    (∀ k' i, afind s.table k' = some i → i ∈ s'.lru → afind s'.table k' = some i) :=
  evictLoopF_spec s.lru.length w hl

/-- Tracking the freshly inserted entry through one iteration of the
eviction loop: its handle keeps its data; it either survives in the
sequence with both pins, or has been evicted exactly once (internal pin
released, external pin kept). -/
theorem evictBodyP {n : Nat} {e2 e1 : LRUHandle K V} {s s' : CacheState K V}
    (w : WF s) (hb : evictBody s = some s')
    (he : e1 = { e2 with refs := e2.refs - 1 }) (hr2 : e2.refs = 2)
    (hP : (afind s.heap n = some e2 ∧ n ∈ s.lru) ∨
      (afind s.heap n = some e1 ∧ n ∉ s.lru)) :
    (afind s'.heap n = some e2 ∧ n ∈ s'.lru) ∨
      (afind s'.heap n = some e1 ∧ n ∉ s'.lru) := by
  have hb0 := hb
  unfold evictBody at hb
  cases hl : s.lru.getLast? with
  | none => simp [hl] at hb
  | some back =>
    simp only [hl] at hb
    cases hf : afind s.heap back with
    | none => simp [hf] at hb
    | some h =>
      simp only [hf] at hb
      obtain ⟨hlne, hbe⟩ := List.mem_getLast?_eq_getLast hl
      have hback : back ∈ s.lru := by
        rw [hbe]
        exact List.getLast_mem hlne
      have hmemiff := mem_dropLast_iff w.lru_nd hl
      by_cases hbn : back = n
      · subst hbn
        rcases hP with ⟨hfn, hmem⟩ | ⟨hfn, hmem⟩
        · rw [hf] at hfn
          obtain rfl : h = e2 := Option.some.inj hfn
          have hr1 : ¬ h.refs = 1 := by omega
          rw [releaseId_live
            (s := { s with table := aerase s.table h.key, lru := s.lru.dropLast })
            hf (by omega)] at hb
          obtain rfl : _ = s' := Option.some.inj hb
          right
          constructor
          · show afind (aset s.heap back { h with refs := h.refs - 1 }) back = some e1
            rw [afind_aset_self hf, he]
          · show back ∉ s.lru.dropLast
            exact fun hmem2 => ((hmemiff back).mp hmem2).2 rfl
        · exact absurd hback hmem
      · rcases hP with ⟨hfn, hmem⟩ | ⟨hfn, hmem⟩
        · have hne : n ≠ back := fun heq => hbn heq.symm
          have hdl : n ∈ s.lru.dropLast := (hmemiff n).mpr ⟨hmem, hne⟩
          obtain ⟨-, -, -, hlru, -, hheap, -⟩ := evictBody_spec w hb0
          left
          rw [hlru]
          refine ⟨?_, hdl⟩
          rw [hheap n (Or.inl (by rw [hlru]; exact hdl))]
          exact hfn
        · obtain ⟨-, -, -, hlru, -, hheap, -⟩ := evictBody_spec w hb0
          right
          rw [hlru]
          refine ⟨?_, fun hmem2 => hmem ((hmemiff n).mp hmem2).1⟩
          rw [hheap n (Or.inr hmem)]
          exact hfn

/-- The tracking of the fresh entry through the whole eviction loop. -/
theorem evictLoopFP {n : Nat} {e2 e1 : LRUHandle K V}
    (he : e1 = { e2 with refs := e2.refs - 1 }) (hr2 : e2.refs = 2) :
    ∀ (fuel : Nat) {s s' : CacheState K V}, WF s →
    ((afind s.heap n = some e2 ∧ n ∈ s.lru) ∨
      (afind s.heap n = some e1 ∧ n ∉ s.lru)) →
    evictLoopF fuel s = some s' →
    ((afind s'.heap n = some e2 ∧ n ∈ s'.lru) ∨
      (afind s'.heap n = some e1 ∧ n ∉ s'.lru)) := by
  intro fuel
  induction fuel with
  | zero =>
    intro s s' w hP hl
    rw [evictLoopF] at hl
    split at hl
    case isTrue hcond =>
      split at hl
      next heq => exact Option.noConfusion hl
      next s1 heq => exact Option.noConfusion hl
    case isFalse hcond =>
      obtain rfl : s = s' := Option.some.inj hl
      exact hP
  | succ fuel ih =>
    intro s s' w hP hl
    rw [evictLoopF] at hl
    split at hl
    case isTrue hcond =>
      split at hl
      next heq => exact Option.noConfusion hl
      next s1 heq =>
        have hl' : evictLoopF fuel s1 = some s' := hl
        exact ih (evictBody_spec w heq).1 (evictBodyP w heq he hr2 hP) hl'
    case isFalse hcond =>
      obtain rfl : s = s' := Option.some.inj hl
      exact hP

/-- The tracking at the loop's natural fuel. -/
theorem evictLoopP {n : Nat} {d e : LRUHandle K V} {s s' : CacheState K V}
    (he : e = { d with refs := d.refs - 1 }) (hr2 : d.refs = 2)
    (w : WF s)
    (hP : (afind s.heap n = some d ∧ n ∈ s.lru) ∨
      (afind s.heap n = some e ∧ n ∉ s.lru))
    (hl : evictLoop s = some s') :
    (afind s'.heap n = some d ∧ n ∈ s'.lru) ∨
      (afind s'.heap n = some e ∧ n ∉ s'.lru) :=
  evictLoopFP he hr2 s.lru.length w hP hl

/-- Core of `Insert` after the overwrite handling: registering the fresh
entry at the front and running the eviction loop, starting from any
well-formed state `s1` with `k` unregistered. -/
theorem insert_reg_loop_spec {s1 s' : CacheState K V} {k : K} {v : V} {c : Nat}
    (w1 : WF s1) (hk : afind s1.table k = none)
    (hl : evictLoop
      { s1 with
        lru := s1.nextId :: s1.lru
        table := (k, s1.nextId) :: s1.table
        heap := (s1.nextId, ⟨k, v, 2, c⟩) :: s1.heap
        usage := s1.usage + c
        nextId := s1.nextId + 1 } = some s') :
    WF s' ∧ s'.capacity = s1.capacity ∧ s'.nextId = s1.nextId + 1 ∧
    (s'.usage ≤ s'.capacity ∨ s'.lru = []) ∧
    (s'.lru ≠ [] → s1.nextId ∈ s'.lru ∧ afind s'.table k = some s1.nextId ∧
      afind s'.heap s1.nextId = some ⟨k, v, 2, c⟩) ∧
    (∀ o, o ∉ s1.lru → o < s1.nextId →
      afind s'.heap o = afind s1.heap o ∧ o ∉ s'.lru) ∧
    s'.usage ≤ s1.usage + c ∧
    s'.lru <+: s1.nextId :: s1.lru ∧
    (s'.lru = [] → afind s'.heap s1.nextId = some ⟨k, v, 1, c⟩) := by
  have hknotin : ∀ p ∈ s1.table, p.1 ≠ k := afind_eq_none.mp hk
  have hnid_lru : s1.nextId ∉ s1.lru := fun hmem =>
    Nat.lt_irrefl s1.nextId (w1.lru_lt s1.nextId hmem)
  have w2 : WF
      { s1 with
        lru := s1.nextId :: s1.lru
        table := (k, s1.nextId) :: s1.table
        heap := (s1.nextId, (⟨k, v, 2, c⟩ : LRUHandle K V)) :: s1.heap
        usage := s1.usage + c
        nextId := s1.nextId + 1 } := by
    refine ⟨?_, ?_, ?_, ?_, ?_, ?_, ?_, ?_, ?_, ?_, ?_⟩
    · show s1.usage + c = heapCharges ((s1.nextId, (⟨k, v, 2, c⟩ : LRUHandle K V)) :: s1.heap)
      have hu := w1.usage_eq
      simp only [heapCharges] at hu ⊢
      rw [asum_cons]
      dsimp only
      omega
    · show (((k, s1.nextId) :: s1.table).map Prod.fst).Nodup
      rw [List.map_cons, List.nodup_cons]
      refine ⟨?_, w1.tkeys_nd⟩
      intro hmem
      rcases List.mem_map.mp hmem with ⟨q, hq, he⟩
      exact hknotin q hq he
    · show (((k, s1.nextId) :: s1.table).map Prod.snd).Nodup
      rw [List.map_cons, List.nodup_cons]
      refine ⟨?_, w1.tids_nd⟩
      intro hmem
      rcases List.mem_map.mp hmem with ⟨q, hq, he⟩
      have hlt := w1.lru_lt q.2 (w1.treg_lru q hq)
      rw [he] at hlt
      exact Nat.lt_irrefl _ hlt
    · exact List.nodup_cons.mpr ⟨hnid_lru, w1.lru_nd⟩
    · show (((s1.nextId, (⟨k, v, 2, c⟩ : LRUHandle K V)) :: s1.heap).map Prod.fst).Nodup
      rw [List.map_cons, List.nodup_cons]
      refine ⟨?_, w1.hids_nd⟩
      intro hmem
      rcases List.mem_map.mp hmem with ⟨q, hq, he⟩
      have hlt := w1.heap_lt q hq
      rw [he] at hlt
      exact Nat.lt_irrefl _ hlt
    · intro p hp
      dsimp only at hp ⊢
      rcases List.mem_cons.mp hp with hp | hp
      · rw [hp]
        exact List.mem_cons_self _ _
      · exact List.mem_cons_of_mem _ (w1.treg_lru p hp)
    · intro p hp h' hh'
      dsimp only at hp hh' ⊢
      rcases List.mem_cons.mp hp with hp | hp
      · subst hp
        rw [afind_cons_self] at hh'
        cases hh'
        rfl
      · have hne : p.2 ≠ s1.nextId := fun he => by
          have hlt := w1.lru_lt p.2 (w1.treg_lru p hp)
          rw [he] at hlt
          exact Nat.lt_irrefl _ hlt
        rw [afind_cons_ne hne] at hh'
        exact w1.tkey_match p hp h' hh'
    · intro q hq
      dsimp only at hq
      rcases List.mem_cons.mp hq with hq | hq
      · rw [hq]
        dsimp only
        omega
      · exact w1.refs_pos q hq
    · intro x hx
      dsimp only at hx ⊢
      rcases List.mem_cons.mp hx with hx | hx
      · omega
      · have := w1.lru_lt x hx
        omega
    · intro q hq
      dsimp only at hq ⊢
      rcases List.mem_cons.mp hq with hq | hq
      · rw [hq]
        dsimp only
        omega
      · have := w1.heap_lt q hq
        omega
    · intro x hx h' hh'
      dsimp only at hx hh' ⊢
      rcases List.mem_cons.mp hx with hx | hx
      · subst hx
        rw [afind_cons_self] at hh'
        cases hh'
        exact afind_cons_self
      · have hne : x ≠ s1.nextId := fun he => hnid_lru (he ▸ hx)
        rw [afind_cons_ne hne] at hh'
        have hxr := w1.lru_reg x hx h' hh'
        have hkne : h'.key ≠ k := by
          intro he
          rw [he, hk] at hxr
          cases hxr
        rw [afind_cons_ne hkne]
        exact hxr
  obtain ⟨w3, hcap, hnext, hpost, hpre, husage, hheap, htable⟩ := evictLoop_spec w2 hl
  dsimp only at hcap hnext hpre husage hheap htable
  have hP := evictLoopP (n := s1.nextId) (d := ⟨k, v, 2, c⟩) (e := ⟨k, v, 1, c⟩)
    rfl rfl w2
    (Or.inl ⟨afind_cons_self, List.mem_cons_self _ _⟩) hl
  refine ⟨w3, hcap, hnext, hpost, ?_, ?_, husage, hpre, ?_⟩
  · intro hne
    have hmem : s1.nextId ∈ s'.lru := by
      obtain ⟨t, ht⟩ := hpre
      cases hc : s'.lru with
      | nil => exact absurd hc hne
      | cons a rest =>
        rw [hc] at ht
        simp only [List.cons_append] at ht
        have ha : a = s1.nextId := ((List.cons.injEq _ _ _ _).mp ht).1
        rw [ha]
        exact List.mem_cons_self _ _
    refine ⟨hmem, ?_, ?_⟩
    · exact htable k s1.nextId afind_cons_self hmem
    · rw [hheap s1.nextId (Or.inl hmem)]
      exact afind_cons_self
  · intro o ho holt
    have ho2 : o ∉ (s1.nextId :: s1.lru) := by
      intro hmem
      rcases List.mem_cons.mp hmem with hmem | hmem
      · omega
      · exact ho hmem
    constructor
    · rw [hheap o (Or.inr ho2)]
      exact afind_cons_ne (by omega)
    · intro hmem
      exact ho2 (hpre.subset hmem)
  · intro hnil
    rcases hP with ⟨-, hmem⟩ | ⟨hfn, -⟩
    · rw [hnil] at hmem
      cases hmem
    · exact hfn

theorem releaseId_some_find {s s' : CacheState K V} {id : Nat}
    (h : releaseId s id = some s') :
    ∃ e, afind s.heap id = some e ∧ 1 ≤ e.refs := by
  rcases hf : afind s.heap id with _ | e
  · unfold releaseId at h
    simp only [hf] at h
    exact Option.noConfusion h
  · refine ⟨e, rfl, ?_⟩
    unfold releaseId at h
    simp only [hf] at h
    by_cases e0 : e.refs = 0
    · rw [if_pos e0] at h
      cases h
    · omega

/-- Full characterisation of `Insert` on a well-formed shard: the returned
handle is the freshly allocated one; well-formedness survives; the
post-state is within capacity or fully evicted; if anything survived in the
sequence the new entry is registered at the front with its fresh pinned
handle; ids outside the old sequence are untouched; and the previously
registered entry for the key (if any) is unregistered, its internal pin
released. -/
theorem stepInsert_spec {s s' : CacheState K V} {k : K} {v : V} {c n : Nat}
    (w : WF s) (hi : stepInsert s k v c = some (s', n)) :
    n = s.nextId ∧ WF s' ∧ s'.capacity = s.capacity ∧ s'.nextId = s.nextId + 1 ∧
    (s'.usage ≤ s'.capacity ∨ s'.lru = []) ∧
    (s'.lru ≠ [] → n ∈ s'.lru ∧ afind s'.table k = some n ∧
      afind s'.heap n = some ⟨k, v, 2, c⟩) ∧
    (∀ o, o ∉ s.lru → o < s.nextId →
      afind s'.heap o = afind s.heap o ∧ o ∉ s'.lru) ∧
    (∀ o oh, afind s.table k = some o → afind s.heap o = some oh →
      o ∉ s'.lru ∧ (∀ k0, afind s'.table k0 ≠ some o) ∧
      (2 ≤ oh.refs → afind s'.heap o = some { oh with refs := oh.refs - 1 }) ∧
      (oh.refs = 1 → afind s'.heap o = none)) ∧
    s'.lru.Sublist (s.nextId :: s.lru) ∧
    (s'.lru = [] → afind s'.heap n = some ⟨k, v, 1, c⟩) := by
  unfold stepInsert at hi
  cases hov : afind s.table k with
  | none =>
    simp only [hov] at hi
    split at hi
    case h_1 heq => cases hi
    case h_2 s3 heq =>
      simp only [Option.some.injEq, Prod.mk.injEq] at hi
      obtain ⟨rfl, rfl⟩ := hi
      obtain ⟨w3, hcap, hnext, hpost, hclause, huntouched, husage, hpre, hempty⟩ :=
        insert_reg_loop_spec w hov heq
      refine ⟨rfl, w3, hcap, hnext, hpost, hclause, huntouched, ?_, hpre.sublist, hempty⟩
      intro o oh ho _
      exact Option.noConfusion ho
  | some oldId =>
    simp only [hov] at hi
    split at hi
    case h_1 heqR => cases hi
    case h_2 s1 heqR =>
      obtain ⟨oh, hoh0, hohrefs⟩ := releaseId_some_find heqR
      have hoh : afind s.heap oldId = some oh := hoh0
      have hkey : oh.key = k := w.find_key hov hoh
      have hreg : afind s.table oh.key = some oldId := by
        rw [hkey]
        exact hov
      have hold_lru : oldId ∈ s.lru := w.find_lru hov
      have hold_lt : oldId < s.nextId := w.lru_lt oldId hold_lru
      have hsub : ∀ x ∈ s.lru.erase oldId, x ∈ s.lru := fun x hx =>
        List.mem_of_mem_erase hx
      have hsup : ∀ x ∈ s.lru, x ≠ oldId → x ∈ s.lru.erase oldId := fun x hx hne =>
        (List.mem_erase_of_ne hne).mpr hx
      have hnd' : (s.lru.erase oldId).Nodup := w.lru_nd.erase oldId
      have htue : aerase s.table oh.key = aerase s.table k := by rw [hkey]
      have hnotin : oldId ∉ s.lru.erase oldId := w.lru_nd.not_mem_erase
      by_cases hr : oh.refs = 1
      · rw [releaseId_dead
          (s := { s with lru := s.lru.erase oldId, table := aerase s.table k })
          hoh hr] at heqR
        obtain rfl : _ = s1 := Option.some.inj heqR
        have w1 : WF ⟨s.usage - oh.charge, s.capacity, s.lru.erase oldId,
            aerase s.table k, aerase s.heap oldId, s.nextId⟩ := by
          have hwf := WF_unreg_dead w hoh hreg hsub hsup hnd'
          rw [htue] at hwf
          exact hwf
        have hk1 : afind (aerase s.table k) k = none := afind_aerase_self w.tkeys_nd
        split at hi
        next heq => cases hi
        next s3 heq =>
          simp only [Option.some.injEq, Prod.mk.injEq] at hi
          obtain ⟨rfl, rfl⟩ := hi
          obtain ⟨w3, hcap, hnext, hpost, hclause, huntouched, husage, hpre, hempty⟩ :=
            insert_reg_loop_spec w1 hk1 heq
          dsimp only at hcap hnext hpost hclause huntouched husage hpre hempty
          have hsubl : s3.lru.Sublist (s.nextId :: s.lru) :=
            hpre.sublist.trans ((List.erase_sublist _ _).cons₂ _)
          refine ⟨rfl, w3, hcap, hnext, hpost, hclause, ?_, ?_, hsubl, hempty⟩
          · intro o ho holt
            have ho1 : o ∉ s.lru.erase oldId := fun hmem => ho (hsub o hmem)
            obtain ⟨hh, hl⟩ := huntouched o ho1 holt
            refine ⟨?_, hl⟩
            rw [hh]
            exact afind_aerase_ne (fun he => ho (he ▸ hold_lru))
          · intro o' oh' ho' hoh'
            obtain rfl : oldId = o' := Option.some.inj ho'
            rw [hoh] at hoh'
            obtain rfl : oh = oh' := Option.some.inj hoh'
            obtain ⟨hh, hl⟩ := huntouched oldId hnotin hold_lt
            have hdead : afind s3.heap oldId = none := by
              rw [hh]
              exact afind_aerase_self w.hids_nd
            refine ⟨hl, ?_, by omega, fun _ => hdead⟩
            intro k0 hk0
            have hmem := afind_mem hk0
            have hlru := w3.treg_lru (k0, oldId) hmem
            exact hl hlru
      · have hr2 : 2 ≤ oh.refs := by omega
        rw [releaseId_live
          (s := { s with lru := s.lru.erase oldId, table := aerase s.table k })
          hoh hr2] at heqR
        obtain rfl : _ = s1 := Option.some.inj heqR
        have w1 : WF ⟨s.usage, s.capacity, s.lru.erase oldId,
            aerase s.table k, aset s.heap oldId { oh with refs := oh.refs - 1 },
            s.nextId⟩ := by
          have hwf := WF_unreg_live w hoh hreg hr2 hsub hsup hnotin hnd'
          rw [htue] at hwf
          exact hwf
        have hk1 : afind (aerase s.table k) k = none := afind_aerase_self w.tkeys_nd
        split at hi
        next heq => cases hi
        next s3 heq =>
          simp only [Option.some.injEq, Prod.mk.injEq] at hi
          obtain ⟨rfl, rfl⟩ := hi
          obtain ⟨w3, hcap, hnext, hpost, hclause, huntouched, husage, hpre, hempty⟩ :=
            insert_reg_loop_spec w1 hk1 heq
          dsimp only at hcap hnext hpost hclause huntouched husage hpre hempty
          have hsubl : s3.lru.Sublist (s.nextId :: s.lru) :=
            hpre.sublist.trans ((List.erase_sublist _ _).cons₂ _)
          refine ⟨rfl, w3, hcap, hnext, hpost, hclause, ?_, ?_, hsubl, hempty⟩
          · intro o ho holt
            have ho1 : o ∉ s.lru.erase oldId := fun hmem => ho (hsub o hmem)
            obtain ⟨hh, hl⟩ := huntouched o ho1 holt
            refine ⟨?_, hl⟩
            rw [hh]
            exact afind_aset_ne (fun he => ho (he ▸ hold_lru))
          · intro o' oh' ho' hoh'
            obtain rfl : oldId = o' := Option.some.inj ho'
            rw [hoh] at hoh'
            obtain rfl : oh = oh' := Option.some.inj hoh'
            obtain ⟨hh, hl⟩ := huntouched oldId hnotin hold_lt
            have hlive : afind s3.heap oldId = some { oh with refs := oh.refs - 1 } := by
              rw [hh]
              exact afind_aset_self hoh
            refine ⟨hl, ?_, fun _ => hlive, by omega⟩
            intro k0 hk0
            have hmem := afind_mem hk0
            have hlru := w3.treg_lru (k0, oldId) hmem
            exact hl hlru


theorem regC_table_sublist {hp : List (Nat × LRUHandle K V)} {t' t : List (K × Nat)}
    (h : t'.Sublist t) : regC hp t' ≤ regC hp t := by
  unfold regC
  exact sum_le_of_sublist (h.map _)

theorem regC_heap_aerase_le {hp : List (Nat × LRUHandle K V)} {t : List (K × Nat)}
    {id : Nat} (hh : (hp.map Prod.fst).Nodup) :
    regC (aerase hp id) t ≤ regC hp t := by
  unfold regC
  apply List.sum_le_sum
  intro p hp'
  by_cases he : p.2 = id
  · rw [he, afind_aerase_self hh]
    cases hf : afind hp id <;> simp
  · rw [afind_aerase_ne he]

theorem regC_heap_aset_eq {hp : List (Nat × LRUHandle K V)} {t : List (K × Nat)}
    {id : Nat} {h e' : LRUHandle K V} (hf : afind hp id = some h)
    (hc : e'.charge = h.charge) :
    regC (aset hp id e') t = regC hp t := by
  unfold regC
  congr 1
  apply List.map_congr_left
  intro p hp'
  by_cases he : p.2 = id
  · rw [he]
    simp only [afind_aset_self hf, hf]
    exact hc
  · rw [afind_aset_ne he]

/-- `Lookup` on an unregistered key: not-found, and the state is untouched. -/
theorem stepLookup_none {s : CacheState K V} {k : K}
    (hk : afind s.table k = none) : stepLookup s k = some (s, none) := by
  unfold stepLookup
  rw [hk]

/-- `Lookup` on a registered, live entry: moves it to the front of the
sequence (unless already there), bumps its reference count by one, and
returns its handle. -/
theorem stepLookup_found {s : CacheState K V} {k : K} {id : Nat}
    {h : LRUHandle K V} (ht : afind s.table k = some id)
    (hh : afind s.heap id = some h) :
    stepLookup s k = some
      ({ s with
          lru := if s.lru.head? = some id then s.lru else id :: s.lru.erase id,
          heap := aset s.heap id { h with refs := h.refs + 1 } }, some id) := by
  unfold stepLookup
  simp only [ht, hh]

/-- Well-formedness is preserved by a successful lookup. -/
theorem WF_lookup {s : CacheState K V} {k : K} {id : Nat} {h : LRUHandle K V}
    (w : WF s) (ht : afind s.table k = some id) (hh : afind s.heap id = some h) :
    WF { s with
        lru := if s.lru.head? = some id then s.lru else id :: s.lru.erase id,
        heap := aset s.heap id { h with refs := h.refs + 1 } } := by
  have hid_lru : id ∈ s.lru := w.find_lru ht
  have hkeq : h.key = k := w.find_key ht hh
  have hmemL : ∀ x, (x ∈ if s.lru.head? = some id then s.lru
      else id :: s.lru.erase id) ↔ x ∈ s.lru := by
    intro x
    split
    · exact Iff.rfl
    · constructor
      · intro hx
        rcases List.mem_cons.mp hx with hx | hx
        · exact hx ▸ hid_lru
        · exact List.mem_of_mem_erase hx
      · intro hx
        by_cases hxe : x = id
        · exact hxe ▸ List.mem_cons_self _ _
        · exact List.mem_cons_of_mem _ ((List.mem_erase_of_ne hxe).mpr hx)
  refine ⟨?_, w.tkeys_nd, w.tids_nd, ?_, ?_, ?_, ?_, ?_, ?_, ?_, ?_⟩
  · show s.usage = heapCharges (aset s.heap id { h with refs := h.refs + 1 })
    have hs := asum_aset (b := { h with refs := h.refs + 1 }) LRUHandle.charge hh rfl
    have hu := w.usage_eq
    simp only [heapCharges] at hu ⊢
    rw [hs]
    exact hu
  · show (if s.lru.head? = some id then s.lru else id :: s.lru.erase id).Nodup
    split
    · exact w.lru_nd
    · exact List.nodup_cons.mpr ⟨w.lru_nd.not_mem_erase, w.lru_nd.erase id⟩
  · show ((aset s.heap id { h with refs := h.refs + 1 }).map Prod.fst).Nodup
    rw [keys_aset]
    exact w.hids_nd
  · intro p hp
    exact (hmemL p.2).mpr (w.treg_lru p hp)
  · intro p hp h' hh'
    by_cases he : p.2 = id
    · rw [he, afind_aset_self hh] at hh'
      cases hh'
      exact w.tkey_match p hp h (by rw [he]; exact hh)
    · rw [afind_aset_ne he] at hh'
      exact w.tkey_match p hp h' hh'
  · intro q hq
    rcases mem_aset hq with hq | hq
    · exact w.refs_pos q hq
    · rw [hq]
      dsimp only
      omega
  · intro x hx
    exact w.lru_lt x ((hmemL x).mp hx)
  · intro q hq
    rcases mem_aset hq with hq | hq
    · exact w.heap_lt q hq
    · rw [hq]
      exact w.heap_lt (id, h) (afind_mem hh)
  · intro x hx h' hh'
    have hx' : x ∈ s.lru := (hmemL x).mp hx
    by_cases he : x = id
    · subst he
      rw [afind_aset_self hh] at hh'
      cases hh'
      exact w.lru_reg x hx' h hh
    · rw [afind_aset_ne he] at hh'
      exact w.lru_reg x hx' h' hh'

/-- `Erase` on an unregistered key is a no-op. -/
theorem stepErase_none {s : CacheState K V} {k : K}
    (hk : afind s.table k = none) : stepErase s k = some s := by
  unfold stepErase
  rw [hk]

/-- `Erase` preserves well-formedness, capacity, allocator state; it never
increases the registered charge, and it leaves every handle outside the
sequence untouched. -/
theorem stepErase_spec {s s' : CacheState K V} {k : K}
    (w : WF s) (he : stepErase s k = some s') :
    WF s' ∧ s'.capacity = s.capacity ∧ s'.nextId = s.nextId ∧
    registeredCharge s' ≤ registeredCharge s ∧
    (∀ o, o ∉ s.lru → afind s'.heap o = afind s.heap o) ∧
    s'.lru.Sublist s.lru := by
  unfold stepErase at he
  cases hov : afind s.table k with
  | none =>
    rw [hov] at he
    obtain rfl : s = s' := Option.some.inj he
    exact ⟨w, rfl, rfl, Nat.le_refl _, fun o _ => rfl, List.Sublist.refl _⟩
  | some id =>
    simp only [hov] at he
    split at he
    next heqR => cases he
    next s1 heqR =>
      obtain ⟨oh, hoh, hohrefs⟩ := releaseId_some_find heqR
      have hkey : oh.key = k := w.find_key hov hoh
      have hreg : afind s.table oh.key = some id := by
        rw [hkey]
        exact hov
      have hid_lru : id ∈ s.lru := w.find_lru hov
      have hsub : ∀ x ∈ s.lru.erase id, x ∈ s.lru := fun x hx =>
        List.mem_of_mem_erase hx
      have hsup : ∀ x ∈ s.lru, x ≠ id → x ∈ s.lru.erase id := fun x hx hne =>
        (List.mem_erase_of_ne hne).mpr hx
      have hnd' : (s.lru.erase id).Nodup := w.lru_nd.erase id
      have hnotin : id ∉ s.lru.erase id := w.lru_nd.not_mem_erase
      have htue : aerase s.table oh.key = aerase s.table k := by rw [hkey]
      by_cases hr : oh.refs = 1
      · rw [releaseId_dead hoh hr] at heqR
        obtain rfl : _ = s1 := Option.some.inj heqR
        obtain rfl : _ = s' := Option.some.inj he
        constructor
        · have hwf := WF_unreg_dead w hoh hreg hsub hsup hnd'
          rw [htue] at hwf
          exact hwf
        refine ⟨rfl, rfl, ?_, ?_, List.erase_sublist _ _⟩
        · calc regC (aerase s.heap id) (aerase s.table k)
              ≤ regC (aerase s.heap id) s.table :=
                regC_table_sublist (aerase_sublist _ _)
            _ ≤ regC s.heap s.table := regC_heap_aerase_le w.hids_nd
        · intro o ho
          exact afind_aerase_ne (fun heq => ho (heq ▸ hid_lru))
      · have hr2 : 2 ≤ oh.refs := by omega
        rw [releaseId_live hoh hr2] at heqR
        obtain rfl : _ = s1 := Option.some.inj heqR
        obtain rfl : _ = s' := Option.some.inj he
        constructor
        · have hwf := WF_unreg_live w hoh hreg hr2 hsub hsup hnotin hnd'
          rw [htue] at hwf
          exact hwf
        refine ⟨rfl, rfl, ?_, ?_, List.erase_sublist _ _⟩
        · calc regC (aset s.heap id { oh with refs := oh.refs - 1 }) (aerase s.table k)
              ≤ regC (aset s.heap id { oh with refs := oh.refs - 1 }) s.table :=
                regC_table_sublist (aerase_sublist _ _)
            _ = regC s.heap s.table := regC_heap_aset_eq hoh rfl
        · intro o ho
          exact afind_aset_ne (fun heq => ho (heq ▸ hid_lru))

/-- A bare `Release` (external caller returning a lease) preserves
well-formedness; sequence, table, capacity and allocator are untouched, the
registered charge cannot grow, and other handles are untouched. -/
theorem releaseId_op_spec {s s' : CacheState K V} {id : Nat}
    (w : WF s) (hr : releaseId s id = some s') :
    WF s' ∧ s'.capacity = s.capacity ∧ s'.nextId = s.nextId ∧
    s'.lru = s.lru ∧ s'.table = s.table ∧
    registeredCharge s' ≤ registeredCharge s ∧
    (∀ o, o ≠ id → afind s'.heap o = afind s.heap o) := by
  obtain ⟨h, hf, hrefs⟩ := releaseId_some_find hr
  by_cases h1 : h.refs = 1
  · rw [releaseId_dead hf h1] at hr
    obtain rfl : _ = s' := Option.some.inj hr
    refine ⟨?_, rfl, rfl, rfl, rfl, ?_, ?_⟩
    · refine ⟨?_, w.tkeys_nd, w.tids_nd, w.lru_nd, ?_, w.treg_lru, ?_, ?_, w.lru_lt,
        ?_, ?_⟩
      · show s.usage - h.charge = heapCharges (aerase s.heap id)
        have hs := asum_aerase LRUHandle.charge w.hids_nd hf
        have hu := w.usage_eq
        simp only [heapCharges] at hs hu ⊢
        omega
      · exact ((aerase_sublist s.heap id).map Prod.fst).nodup w.hids_nd
      · intro p hp h' hh'
        by_cases he : p.2 = id
        · rw [he, afind_aerase_self w.hids_nd] at hh'
          cases hh'
        · rw [afind_aerase_ne he] at hh'
          exact w.tkey_match p hp h' hh'
      · intro q hq
        exact w.refs_pos q (mem_aerase hq)
      · intro q hq
        exact w.heap_lt q (mem_aerase hq)
      · intro x hx h' hh'
        by_cases he : x = id
        · rw [he, afind_aerase_self w.hids_nd] at hh'
          cases hh'
        · rw [afind_aerase_ne he] at hh'
          exact w.lru_reg x hx h' hh'
    · exact regC_heap_aerase_le w.hids_nd
    · intro o ho
      exact afind_aerase_ne ho
  · have h2 : 2 ≤ h.refs := by omega
    rw [releaseId_live hf h2] at hr
    obtain rfl : _ = s' := Option.some.inj hr
    refine ⟨?_, rfl, rfl, rfl, rfl, ?_, ?_⟩
    · refine ⟨?_, w.tkeys_nd, w.tids_nd, w.lru_nd, ?_, w.treg_lru, ?_, ?_, w.lru_lt,
        ?_, ?_⟩
      · show s.usage = heapCharges (aset s.heap id { h with refs := h.refs - 1 })
        have hs := asum_aset (b := { h with refs := h.refs - 1 }) LRUHandle.charge hf rfl
        have hu := w.usage_eq
        simp only [heapCharges] at hu ⊢
        rw [hs]
        exact hu
      · show ((aset s.heap id { h with refs := h.refs - 1 }).map Prod.fst).Nodup
        rw [keys_aset]
        exact w.hids_nd
      · intro p hp h' hh'
        by_cases he : p.2 = id
        · rw [he, afind_aset_self hf] at hh'
          cases hh'
          exact w.tkey_match p hp h (by rw [he]; exact hf)
        · rw [afind_aset_ne he] at hh'
          exact w.tkey_match p hp h' hh'
      · intro q hq
        rcases mem_aset hq with hq | hq
        · exact w.refs_pos q hq
        · rw [hq]
          dsimp only
          omega
      · intro q hq
        rcases mem_aset hq with hq | hq
        · exact w.heap_lt q hq
        · rw [hq]
          exact w.heap_lt (id, h) (afind_mem hf)
      · intro x hx h' hh'
        by_cases he : x = id
        · subst he
          rw [afind_aset_self hf] at hh'
          cases hh'
          exact w.lru_reg x hx h hf
        · rw [afind_aset_ne he] at hh'
          exact w.lru_reg x hx h' hh'
    · exact Nat.le_of_eq (regC_heap_aset_eq hf rfl)
    · intro o ho
      exact afind_aset_ne ho

/-- The `Prune` loop over a snapshot of the sequence: well-formedness is
preserved, the sequence itself is untouched (this is the behaviour of the
reference code — freed entries stay in `lru_`), the registered charge
cannot grow, and handles outside the sequence are untouched. -/
theorem pruneAux_spec : ∀ (l : List Nat) {s s' : CacheState K V},
    WF s → (∀ x ∈ l, x ∈ s.lru) → pruneAux s l = some s' →
    WF s' ∧ s'.capacity = s.capacity ∧ s'.nextId = s.nextId ∧ s'.lru = s.lru ∧
    registeredCharge s' ≤ registeredCharge s ∧
    (∀ o, o ∉ s.lru → afind s'.heap o = afind s.heap o) := by
  intro l
  induction l with
  | nil =>
    intro s s' w hl hp
    unfold pruneAux at hp
    obtain rfl : s = s' := Option.some.inj hp
    exact ⟨w, rfl, rfl, rfl, Nat.le_refl _, fun o _ => rfl⟩
  | cons id rest ih =>
    intro s s' w hl hp
    unfold pruneAux at hp
    cases hf : afind s.heap id with
    | none => simp [hf] at hp
    | some h =>
      simp only [hf] at hp
      have hid_lru : id ∈ s.lru := hl id (List.mem_cons_self _ _)
      by_cases hr : h.refs = 1
      · rw [if_pos hr] at hp
        have hreg : afind s.table h.key = some id := w.lru_reg id hid_lru h hf
        simp only [hreg] at hp
        split at hp
        next heq2 => cases hp
        next s2 heq2 =>
          rw [releaseId_dead (s := { s with table := aerase s.table h.key })
            hf hr] at heq2
          obtain rfl : _ = s2 := Option.some.inj heq2
          have w2 : WF ⟨s.usage - h.charge, s.capacity, s.lru, aerase s.table h.key,
              aerase s.heap id, s.nextId⟩ :=
            WF_unreg_dead w hf hreg (fun x hx => hx) (fun x hx _ => hx) w.lru_nd
          have hrest : ∀ x ∈ rest,
              x ∈ (⟨s.usage - h.charge, s.capacity, s.lru, aerase s.table h.key,
                aerase s.heap id, s.nextId⟩ : CacheState K V).lru :=
            fun x hx => hl x (List.mem_cons_of_mem _ hx)
          obtain ⟨w3, hcap, hnext, hlru, hregle, hheap3⟩ := ih w2 hrest hp
          refine ⟨w3, hcap, hnext, hlru, ?_, ?_⟩
          · calc registeredCharge s'
                ≤ regC (aerase s.heap id) (aerase s.table h.key) := hregle
              _ ≤ regC (aerase s.heap id) s.table :=
                regC_table_sublist (aerase_sublist _ _)
              _ ≤ regC s.heap s.table := regC_heap_aerase_le w.hids_nd
          · intro o ho
            rw [hheap3 o ho]
            exact afind_aerase_ne (fun heq => ho (heq ▸ hid_lru))
      · rw [if_neg hr] at hp
        exact ih w (fun x hx => hl x (List.mem_cons_of_mem _ hx)) hp

/-- `Prune` specification at the full sequence. -/
theorem stepPrune_spec {s s' : CacheState K V}
    (w : WF s) (hp : stepPrune s = some s') :
    WF s' ∧ s'.capacity = s.capacity ∧ s'.nextId = s.nextId ∧ s'.lru = s.lru ∧
    registeredCharge s' ≤ registeredCharge s ∧
    (∀ o, o ∉ s.lru → afind s'.heap o = afind s.heap o) :=
  pruneAux_spec s.lru w (fun _ hx => hx) hp

theorem regC_nil {hp : List (Nat × LRUHandle K V)} : regC hp [] = 0 := rfl

theorem table_nil_of_lru_nil {s : CacheState K V} (w : WF s) (h : s.lru = []) :
    s.table = [] := by
  rcases ht : s.table with _ | ⟨p, rest⟩
  · rfl
  · have := w.treg_lru p (by rw [ht]; exact List.mem_cons_self _ _)
    rw [h] at this
    cases this

/-- One public operation preserves well-formedness, the capacity, and the
registered-charge-within-capacity bound. -/
theorem step_inv {s s' : CacheState K V} {op : Op K V}
    (w : WF s) (hreg : registeredCharge s ≤ s.capacity)
    (h : step s op = some s') :
    WF s' ∧ s'.capacity = s.capacity ∧ registeredCharge s' ≤ s'.capacity := by
  cases op with
  | insert k v c =>
    simp only [step] at h
    cases hi : stepInsert s k v c with
    | none => rw [hi] at h; cases h
    | some p =>
      rw [hi] at h
      obtain ⟨s3, n⟩ := p
      simp only [Option.map_some'] at h
      obtain rfl : s3 = s' := Option.some.inj h
      obtain ⟨-, w3, hcap, -, hpost, -, -, -⟩ := stepInsert_spec w hi
      refine ⟨w3, hcap, ?_⟩
      rcases hpost with hpost | hpost
      · exact (registeredCharge_le_usage w3).trans hpost
      · have := table_nil_of_lru_nil w3 hpost
        unfold registeredCharge
        rw [this, regC_nil]
        exact Nat.zero_le _
  | lookup k =>
    simp only [step] at h
    cases hov : afind s.table k with
    | none =>
      rw [stepLookup_none hov] at h
      simp only [Option.map_some'] at h
      obtain rfl : s = s' := Option.some.inj h
      exact ⟨w, rfl, hreg⟩
    | some id =>
      cases hh : afind s.heap id with
      | none =>
        simp [stepLookup, hov, hh] at h
      | some hd =>
        rw [stepLookup_found hov hh] at h
        simp only [Option.map_some'] at h
        obtain rfl : _ = s' := Option.some.inj h
        refine ⟨WF_lookup w hov hh, rfl, ?_⟩
        calc registeredCharge
              { s with
                lru := if s.lru.head? = some id then s.lru else id :: s.lru.erase id,
                heap := aset s.heap id { hd with refs := hd.refs + 1 } }
            = regC s.heap s.table := regC_heap_aset_eq hh rfl
          _ ≤ s.capacity := hreg
  | release id =>
    obtain ⟨w', hcap, -, -, -, hregle, -⟩ := releaseId_op_spec w h
    exact ⟨w', hcap, by rw [hcap]; exact hregle.trans hreg⟩
  | erase k =>
    obtain ⟨w', hcap, -, hregle, -, -⟩ := stepErase_spec w h
    exact ⟨w', hcap, by rw [hcap]; exact hregle.trans hreg⟩
  | prune =>
    obtain ⟨w', hcap, -, -, hregle, -⟩ := stepPrune_spec w h
    exact ⟨w', hcap, by rw [hcap]; exact hregle.trans hreg⟩

theorem runFrom_inv : ∀ (ops : List (Op K V)) {s s' : CacheState K V},
    WF s → registeredCharge s ≤ s.capacity → runFrom s ops = some s' →
    WF s' ∧ registeredCharge s' ≤ s'.capacity ∧ s'.capacity = s.capacity := by
  intro ops
  induction ops with
  | nil =>
    intro s s' w hreg hr
    unfold runFrom at hr
    obtain rfl : s = s' := Option.some.inj hr
    exact ⟨w, hreg, rfl⟩
  | cons op rest ih =>
    intro s s' w hreg hr
    unfold runFrom at hr
    cases hstep : step s op with
    | none => rw [hstep] at hr; cases hr
    | some s1 =>
      rw [hstep] at hr
      obtain ⟨w1, hcap1, hreg1⟩ := step_inv w hreg hstep
      obtain ⟨w', hreg', hcap'⟩ := ih w1 hreg1 hr
      exact ⟨w', hreg', hcap'.trans hcap1⟩

theorem initState_wf (c : Nat) : WF (initState K V c) :=
  ⟨rfl, List.nodup_nil, List.nodup_nil, List.nodup_nil, List.nodup_nil,
    fun p hp => absurd hp (List.not_mem_nil p),
    fun p hp => absurd hp (List.not_mem_nil p),
    fun q hq => absurd hq (List.not_mem_nil q),
    fun x hx => absurd hx (List.not_mem_nil x),
    fun q hq => absurd hq (List.not_mem_nil q),
    fun x hx => absurd hx (List.not_mem_nil x)⟩

/-- Master trace invariant: every state reached by a successfully
completed trace is well-formed, keeps the registered charge within
capacity, and keeps the construction-time capacity. -/
theorem runTrace_inv {c : Nat} {ops : List (Op K V)} {s : CacheState K V}
    (h : runTrace K V c ops = some s) :
    WF s ∧ registeredCharge s ≤ s.capacity ∧ s.capacity = c :=
  runFrom_inv ops (initState_wf c) (Nat.zero_le _) h

/-- Ghost-instrumented state for reasoning about recency: alongside the
shard state, a last-touch stamp for every handle id and a logical clock. -/
structure GCacheState (K V : Type) where
  st : CacheState K V
  stamp : Nat → Nat
  time : Nat

/-- Ghost step: run the real operation, then record touches — an insert
stamps the freshly allocated id, a successful lookup stamps the found id;
the clock advances on every operation. -/
def stepG (g : GCacheState K V) (op : Op K V) : Option (GCacheState K V) :=
  match step g.st op with
  | none => none
  | some s' =>
    match op with
    | .insert _ _ _ =>
      some ⟨s', fun i => if i = g.st.nextId then g.time else g.stamp i, g.time + 1⟩
    | .lookup k =>
      match afind g.st.table k with
      | some id => some ⟨s', fun i => if i = id then g.time else g.stamp i, g.time + 1⟩
      | none => some ⟨s', g.stamp, g.time + 1⟩
    | _ => some ⟨s', g.stamp, g.time + 1⟩

/-- Recency invariant: the ordered sequence is strictly sorted by
last-touch stamp, most recent first, and all stamps of sequence members
are in the past. -/
def GInv (g : GCacheState K V) : Prop :=
  g.st.lru.Pairwise (fun a b => g.stamp b < g.stamp a) ∧
  ∀ id ∈ g.st.lru, g.stamp id < g.time

def runFromG (g : GCacheState K V) : List (Op K V) → Option (GCacheState K V)
  | [] => some g
  | op :: ops =>
    match stepG g op with
    | none => none
    | some g' => runFromG g' ops

/-- Ghost traces from an empty shard of capacity `c`. -/
def runTraceG (K V : Type) [DecidableEq K] (c : Nat) (ops : List (Op K V)) :
    Option (GCacheState K V) :=
  runFromG ⟨initState K V c, fun _ => 0, 1⟩ ops

theorem pairwise_stamp_of_sublist {l l' : List Nat} {f f' : Nat → Nat}
    (hsub : l'.Sublist l) (hp : l.Pairwise (fun a b => f b < f a))
    (hsame : ∀ x ∈ l, f' x = f x) :
    l'.Pairwise (fun a b => f' b < f' a) := by
  have hp' : l.Pairwise (fun a b => f' b < f' a) := by
    refine List.Pairwise.imp_of_mem ?_ hp
    intro a b ha hb hr
    rw [hsame a ha, hsame b hb]
    exact hr
  exact hp'.sublist hsub

/-- One ghost step preserves the full invariant. -/
theorem stepG_inv {g g' : GCacheState K V} {op : Op K V}
    (w : WF g.st) (hreg : registeredCharge g.st ≤ g.st.capacity) (hG : GInv g)
    (h : stepG g op = some g') :
    WF g'.st ∧ registeredCharge g'.st ≤ g'.st.capacity ∧ GInv g' := by
  unfold stepG at h
  cases hstep : step g.st op with
  | none => rw [hstep] at h; cases h
  | some s' =>
    rw [hstep] at h
    obtain ⟨w', hcap', hreg'⟩ := step_inv w hreg hstep
    cases op with
    | insert k v c =>
      obtain rfl : _ = g' := Option.some.inj h
      refine ⟨w', hreg', ?_, ?_⟩
      · show s'.lru.Pairwise _
        simp only [step] at hstep
        cases hi : stepInsert g.st k v c with
        | none => rw [hi] at hstep; cases hstep
        | some p =>
          rw [hi] at hstep
          obtain ⟨s3, n⟩ := p
          simp only [Option.map_some'] at hstep
          obtain rfl : s3 = s' := Option.some.inj hstep
          obtain ⟨-, -, -, -, -, -, -, -, hsubl, -⟩ := stepInsert_spec w hi
          have hcons : (g.st.nextId :: g.st.lru).Pairwise
              (fun a b => (fun i => if i = g.st.nextId then g.time
                else g.stamp i) b < (fun i => if i = g.st.nextId then g.time
                else g.stamp i) a) := by
            rw [List.pairwise_cons]
            constructor
            · intro x hx
              have hxne : x ≠ g.st.nextId := fun he =>
                Nat.lt_irrefl _ (he ▸ w.lru_lt x hx)
              dsimp only
              rw [if_neg hxne, if_pos rfl]
              exact hG.2 x hx
            · refine List.Pairwise.imp_of_mem ?_ hG.1
              intro a b ha hb hr
              have hane : a ≠ g.st.nextId := fun he =>
                Nat.lt_irrefl _ (he ▸ w.lru_lt a ha)
              have hbne : b ≠ g.st.nextId := fun he =>
                Nat.lt_irrefl _ (he ▸ w.lru_lt b hb)
              dsimp only
              rw [if_neg hane, if_neg hbne]
              exact hr
          exact hcons.sublist hsubl
      · intro id hid
        show (if id = g.st.nextId then g.time else g.stamp id) < g.time + 1
        split
        · omega
        · simp only [step] at hstep
          cases hi : stepInsert g.st k v c with
          | none => rw [hi] at hstep; cases hstep
          | some p =>
            rw [hi] at hstep
            obtain ⟨s3, n⟩ := p
            simp only [Option.map_some'] at hstep
            obtain rfl : s3 = s' := Option.some.inj hstep
            obtain ⟨-, -, -, -, -, -, -, -, hsubl, -⟩ := stepInsert_spec w hi
            have hmem : id ∈ g.st.nextId :: g.st.lru := hsubl.subset hid
            rcases List.mem_cons.mp hmem with hmem | hmem
            · exact absurd hmem (by assumption)
            · have := hG.2 id hmem
              omega
    | lookup k =>
      simp only [step] at hstep
      cases hov : afind g.st.table k with
      | none =>
        simp only [hov] at h
        obtain rfl : _ = g' := Option.some.inj h
        rw [stepLookup_none hov] at hstep
        simp only [Option.map_some'] at hstep
        obtain rfl : g.st = s' := Option.some.inj hstep
        refine ⟨w', hreg', hG.1, ?_⟩
        intro id hid
        have := hG.2 id hid
        dsimp only
        omega
      | some id =>
        simp only [hov] at h
        obtain rfl : _ = g' := Option.some.inj h
        cases hh : afind g.st.heap id with
        | none => simp [stepLookup, hov, hh] at hstep
        | some hd =>
          rw [stepLookup_found hov hh] at hstep
          simp only [Option.map_some'] at hstep
          obtain rfl : _ = s' := Option.some.inj hstep
          have hid_lru : id ∈ g.st.lru := w.find_lru hov
          have hsame : ∀ x ∈ g.st.lru, x ≠ id →
              (fun i => if i = id then g.time else g.stamp i) x = g.stamp x := by
            intro x _ hxne
            dsimp only
            rw [if_neg hxne]
          refine ⟨w', hreg', ?_, ?_⟩
          · show (if g.st.lru.head? = some id then g.st.lru
              else id :: g.st.lru.erase id).Pairwise _
            split
            next hhead =>
              cases hc : g.st.lru with
              | nil => rw [hc] at hhead; cases hhead
              | cons a tail =>
                rw [hc] at hhead
                obtain rfl : a = id := by
                  simp only [List.head?_cons] at hhead
                  exact Option.some.inj hhead
                rw [hc] at hid_lru
                have hnd := w.lru_nd
                rw [hc, List.nodup_cons] at hnd
                have hG1 := hG.1
                rw [hc, List.pairwise_cons] at hG1
                rw [List.pairwise_cons]
                constructor
                · intro x hx
                  have hxne : x ≠ a := fun he => hnd.1 (he ▸ hx)
                  dsimp only
                  rw [if_neg hxne, if_pos rfl]
                  exact hG.2 x (by rw [hc]; exact List.mem_cons_of_mem _ hx)
                · refine List.Pairwise.imp_of_mem ?_ hG1.2
                  intro x y hx hy hr
                  have hxne : x ≠ a := fun he => hnd.1 (he ▸ hx)
                  have hyne : y ≠ a := fun he => hnd.1 (he ▸ hy)
                  dsimp only
                  rw [if_neg hxne, if_neg hyne]
                  exact hr
            next hhead =>
              rw [List.pairwise_cons]
              constructor
              · intro x hx
                have hxne : x ≠ id := (w.lru_nd.mem_erase_iff.mp hx).1
                dsimp only
                rw [if_neg hxne, if_pos rfl]
                exact hG.2 x (List.mem_of_mem_erase hx)
              · have base : (g.st.lru.erase id).Pairwise
                    (fun a b => g.stamp b < g.stamp a) :=
                  hG.1.sublist (List.erase_sublist _ _)
                refine List.Pairwise.imp_of_mem ?_ base
                intro x y hx hy hr
                have hxne : x ≠ id := (w.lru_nd.mem_erase_iff.mp hx).1
                have hyne : y ≠ id := (w.lru_nd.mem_erase_iff.mp hy).1
                dsimp only
                rw [if_neg hxne, if_neg hyne]
                exact hr
          · intro x hx
            show (if x = id then g.time else g.stamp x) < g.time + 1
            split
            · omega
            · have hx' : x ∈ g.st.lru := by
                by_cases hhead : g.st.lru.head? = some id
                · rw [if_pos hhead] at hx
                  exact hx
                · rw [if_neg hhead] at hx
                  rcases List.mem_cons.mp hx with hx | hx
                  · exact absurd hx (by assumption)
                  · exact List.mem_of_mem_erase hx
              have := hG.2 x hx'
              omega
    | release id =>
      obtain rfl : _ = g' := Option.some.inj h
      obtain ⟨-, -, -, hlru, -, -, -⟩ := releaseId_op_spec w hstep
      refine ⟨w', hreg', ?_, ?_⟩
      · show s'.lru.Pairwise _
        rw [hlru]
        exact hG.1
      · intro x hx
        rw [hlru] at hx
        have := hG.2 x hx
        dsimp only
        omega
    | erase k =>
      obtain rfl : _ = g' := Option.some.inj h
      obtain ⟨-, -, -, -, -, hsub⟩ := stepErase_spec w hstep
      refine ⟨w', hreg', hG.1.sublist hsub, ?_⟩
      intro x hx
      have := hG.2 x (hsub.subset hx)
      dsimp only
      omega
    | prune =>
      obtain rfl : _ = g' := Option.some.inj h
      obtain ⟨-, -, -, hlru, -, -⟩ := stepPrune_spec w hstep
      refine ⟨w', hreg', ?_, ?_⟩
      · show s'.lru.Pairwise _
        rw [hlru]
        exact hG.1
      · intro x hx
        rw [hlru] at hx
        have := hG.2 x hx
        dsimp only
        omega

theorem runFromG_inv : ∀ (ops : List (Op K V)) {g g' : GCacheState K V},
    WF g.st → registeredCharge g.st ≤ g.st.capacity → GInv g →
    runFromG g ops = some g' →
    WF g'.st ∧ registeredCharge g'.st ≤ g'.st.capacity ∧ GInv g' := by
  intro ops
  induction ops with
  | nil =>
    intro g g' w hreg hG h
    unfold runFromG at h
    obtain rfl : g = g' := Option.some.inj h
    exact ⟨w, hreg, hG⟩
  | cons op rest ih =>
    intro g g' w hreg hG h
    unfold runFromG at h
    cases hstep : stepG g op with
    | none => rw [hstep] at h; cases h
    | some g1 =>
      rw [hstep] at h
      obtain ⟨w1, hreg1, hG1⟩ := stepG_inv w hreg hG hstep
      exact ih w1 hreg1 hG1 h

/-- Every state reached by a ghost trace is well-formed and satisfies the
recency invariant. -/
theorem runTraceG_inv {c : Nat} {ops : List (Op K V)} {g : GCacheState K V}
    (h : runTraceG K V c ops = some g) :
    WF g.st ∧ GInv g :=
  let r := runFromG_inv ops (initState_wf c) (Nat.zero_le _)
    ⟨List.Pairwise.nil, fun x hx => absurd hx (List.not_mem_nil x)⟩ h
  ⟨r.1, r.2.2⟩

/-- Provenance of heap entries: every handle in `h'` existed in `h` under
the same id and key (reference counts may differ). -/
def heapKeysFrom (h' h : List (Nat × LRUHandle K V)) : Prop :=
  ∀ q ∈ h', ∃ e, (q.1, e) ∈ h ∧ e.key = q.2.key

theorem heapKeysFrom_refl (h : List (Nat × LRUHandle K V)) : heapKeysFrom h h :=
  fun q hq => ⟨q.2, hq, rfl⟩

theorem heapKeysFrom_trans {h1 h2 h3 : List (Nat × LRUHandle K V)}
    (a : heapKeysFrom h1 h2) (b : heapKeysFrom h2 h3) : heapKeysFrom h1 h3 := by
  intro q hq
  obtain ⟨e, he, hk⟩ := a q hq
  obtain ⟨e', he', hk'⟩ := b (q.1, e) he
  exact ⟨e', he', by rw [hk']; exact hk⟩

theorem heapKeysFrom_aerase {h : List (Nat × LRUHandle K V)} {id : Nat} :
    heapKeysFrom (aerase h id) h :=
  fun q hq => ⟨q.2, mem_aerase hq, rfl⟩

theorem heapKeysFrom_aset {h : List (Nat × LRUHandle K V)} {id : Nat}
    {e0 g : LRUHandle K V} (hf : afind h id = some e0) (hk : g.key = e0.key) :
    heapKeysFrom (aset h id g) h := by
  intro q hq
  rcases mem_aset hq with hq | hq
  · exact ⟨q.2, hq, rfl⟩
  · subst hq
    exact ⟨e0, afind_mem hf, hk.symm⟩

theorem releaseId_heap_keys {s s' : CacheState K V} {id : Nat}
    (h : releaseId s id = some s') : heapKeysFrom s'.heap s.heap := by
  obtain ⟨e, hf, hrefs⟩ := releaseId_some_find h
  by_cases h1 : e.refs = 1
  · rw [releaseId_dead hf h1] at h
    obtain rfl : _ = s' := Option.some.inj h
    exact heapKeysFrom_aerase
  · rw [releaseId_live hf (by omega)] at h
    obtain rfl : _ = s' := Option.some.inj h
    exact heapKeysFrom_aset hf rfl

theorem evictBody_heap_keys {s s' : CacheState K V}
    (h : evictBody s = some s') : heapKeysFrom s'.heap s.heap := by
  unfold evictBody at h
  cases hl : s.lru.getLast? with
  | none => simp [hl] at h
  | some back =>
    simp only [hl] at h
    cases hf : afind s.heap back with
    | none => simp [hf] at h
    | some e =>
      simp only [hf] at h
      exact releaseId_heap_keys
        (s := { s with table := aerase s.table e.key, lru := s.lru.dropLast }) h

theorem evictLoopF_heap_keys : ∀ (fuel : Nat) {s s' : CacheState K V},
    evictLoopF fuel s = some s' → heapKeysFrom s'.heap s.heap := by
  intro fuel
  induction fuel with
  | zero =>
    intro s s' h
    rw [evictLoopF] at h
    split at h
    case isTrue hcond =>
      split at h
      next heq => exact Option.noConfusion h
      next s1 heq => exact Option.noConfusion h
    case isFalse hcond =>
      obtain rfl : s = s' := Option.some.inj h
      exact heapKeysFrom_refl _
  | succ fuel ih =>
    intro s s' h
    rw [evictLoopF] at h
    split at h
    case isTrue hcond =>
      split at h
      next heq => exact Option.noConfusion h
      next s1 heq =>
        have h' : evictLoopF fuel s1 = some s' := h
        exact heapKeysFrom_trans (ih h') (evictBody_heap_keys heq)
    case isFalse hcond =>
      obtain rfl : s = s' := Option.some.inj h
      exact heapKeysFrom_refl _

theorem evictLoop_heap_keys {s s' : CacheState K V}
    (h : evictLoop s = some s') : heapKeysFrom s'.heap s.heap :=
  evictLoopF_heap_keys s.lru.length h

theorem pruneAux_heap_keys : ∀ (l : List Nat) {s s' : CacheState K V},
    pruneAux s l = some s' → heapKeysFrom s'.heap s.heap := by
  intro l
  induction l with
  | nil =>
    intro s s' h
    unfold pruneAux at h
    obtain rfl : s = s' := Option.some.inj h
    exact heapKeysFrom_refl _
  | cons id rest ih =>
    intro s s' h
    unfold pruneAux at h
    cases hf : afind s.heap id with
    | none => simp [hf] at h
    | some e =>
      simp only [hf] at h
      by_cases hr : e.refs = 1
      · rw [if_pos hr] at h
        split at h
        next heq2 => cases h
        next s2 heq2 =>
          have hk := releaseId_heap_keys heq2
          exact heapKeysFrom_trans (ih h) hk
      · rw [if_neg hr] at h
        exact ih h

/-- Any operation only ever removes handles, decrements or increments
reference counts, or (for `Insert`) allocates one new handle for the
inserted key: every handle in the post-state heap either existed before
with the same key, or carries the inserted key. -/
theorem step_heap_keys {s s' : CacheState K V} {op : Op K V}
    (h : step s op = some s') :
    ∀ q ∈ s'.heap, (∃ e, (q.1, e) ∈ s.heap ∧ e.key = q.2.key) ∨
      (∃ k v c, op = Op.insert k v c ∧ q.2.key = k) := by
  cases op with
  | insert k v c =>
    simp only [step] at h
    cases hi : stepInsert s k v c with
    | none => rw [hi] at h; cases h
    | some p =>
      rw [hi] at h
      obtain ⟨s3, n⟩ := p
      simp only [Option.map_some'] at h
      obtain rfl : s3 = s' := Option.some.inj h
      unfold stepInsert at hi
      cases hov : afind s.table k with
      | none =>
        simp only [hov] at hi
        split at hi
        next heq => cases hi
        next s4 heq =>
          simp only [Option.some.injEq, Prod.mk.injEq] at hi
          obtain ⟨rfl, rfl⟩ := hi
          have hloop := evictLoop_heap_keys heq
          intro q hq
          obtain ⟨e2, he2, hk2⟩ := hloop q hq
          rcases List.mem_cons.mp he2 with he2 | he2
          · right
            refine ⟨k, v, c, rfl, ?_⟩
            rw [← hk2, (Prod.mk.injEq _ _ _ _).mp he2 |>.2]
          · exact Or.inl ⟨e2, he2, hk2⟩
      | some oldId =>
        simp only [hov] at hi
        split at hi
        next heqR => cases hi
        next s1 heqR =>
          have hrel : heapKeysFrom s1.heap s.heap := by
            have := releaseId_heap_keys heqR
            exact this
          split at hi
          next heq => cases hi
          next s4 heq =>
            simp only [Option.some.injEq, Prod.mk.injEq] at hi
            obtain ⟨rfl, rfl⟩ := hi
            have hloop := evictLoop_heap_keys heq
            intro q hq
            obtain ⟨e2, he2, hk2⟩ := hloop q hq
            rcases List.mem_cons.mp he2 with he2 | he2
            · right
              refine ⟨k, v, c, rfl, ?_⟩
              rw [← hk2, (Prod.mk.injEq _ _ _ _).mp he2 |>.2]
            · obtain ⟨e3, he3, hk3⟩ := hrel (q.1, e2) he2
              refine Or.inl ⟨e3, he3, ?_⟩
              rw [hk3]
              exact hk2
  | lookup k =>
    simp only [step] at h
    cases hov : afind s.table k with
    | none =>
      rw [stepLookup_none hov] at h
      simp only [Option.map_some'] at h
      obtain rfl : s = s' := Option.some.inj h
      intro q hq
      exact Or.inl ⟨q.2, hq, rfl⟩
    | some id =>
      cases hh : afind s.heap id with
      | none => simp [stepLookup, hov, hh] at h
      | some hd =>
        rw [stepLookup_found hov hh] at h
        simp only [Option.map_some'] at h
        obtain rfl : _ = s' := Option.some.inj h
        intro q hq
        exact Or.inl
          (heapKeysFrom_aset (g := { hd with refs := hd.refs + 1 }) hh rfl q hq)
  | release id =>
    intro q hq
    exact Or.inl (releaseId_heap_keys h q hq)
  | erase k =>
    unfold step stepErase at h
    cases hov : afind s.table k with
    | none =>
      simp only [hov] at h
      obtain rfl : s = s' := Option.some.inj h
      intro q hq
      exact Or.inl ⟨q.2, hq, rfl⟩
    | some id =>
      simp only [hov] at h
      split at h
      next heqR => cases h
      next s1 heqR =>
        obtain rfl : _ = s' := Option.some.inj h
        intro q hq
        exact Or.inl (releaseId_heap_keys heqR q hq)
  | prune =>
    intro q hq
    exact Or.inl (pruneAux_heap_keys s.lru h q hq)

/-- `static const int kNumShardBits = 4;` -/
def kNumShardBits : Nat := 4

/-- `static const int kNumShards = 1 << kNumShardBits;` -/
def kNumShards : Nat := 1 <<< kNumShardBits

theorem kNumShards_eq : kNumShards = 16 := rfl

/-- `SharedLRUCache`: a fixed array of `kNumShards` independent shards. -/
structure SharedLRUCache (K V : Type) where
  shard : Fin kNumShards → CacheState K V

/-- `HashSlice(key) = std::hash<Key>()(key)`: the hash is an external
capability of the key type, passed in as a function. -/
def HashSlice (hashf : K → Nat) (k : K) : Nat := hashf k

/-- `Shard(hash) = hash % kNumShards`. -/
def ShardIdx (hash : Nat) : Nat := hash % kNumShards

theorem ShardIdx_lt (hash : Nat) : ShardIdx hash < kNumShards :=
  Nat.mod_lt _ (by decide)

/-- `Shard(hash)` as an index into the shard array. -/
def shardFin (hash : Nat) : Fin kNumShards := ⟨ShardIdx hash, ShardIdx_lt hash⟩

/-- The `SharedLRUCache(capacity)` constructor: every shard gets capacity
`(capacity + kNumShards - 1) / kNumShards`. -/
def sharedInit (K V : Type) (capacity : Nat) : SharedLRUCache K V :=
  ⟨fun _ => initState K V ((capacity + kNumShards - 1) / kNumShards)⟩

/-- Write back the updated shard `j`. -/
def updShard (ss : SharedLRUCache K V) (j : Fin kNumShards)
    (s' : CacheState K V) : SharedLRUCache K V :=
  ⟨fun i => if i = j then s' else ss.shard i⟩

/-- `SharedLRUCache::Insert`: forward to the shard of the key's hash.  The
returned handle is the pair (shard the entry lives in, id). -/
def sharedInsert (hashf : K → Nat) (ss : SharedLRUCache K V) (k : K) (v : V)
    (c : Nat) : Option (SharedLRUCache K V × (Fin kNumShards × Nat)) :=
  let j := shardFin (HashSlice hashf k)
  match stepInsert (ss.shard j) k v c with
  | none => none
  | some (s', id) => some (updShard ss j s', (j, id))

/-- `SharedLRUCache::LookUp`. -/
def sharedLookup (hashf : K → Nat) (ss : SharedLRUCache K V) (k : K) :
    Option (SharedLRUCache K V × Option (Fin kNumShards × Nat)) :=
  let j := shardFin (HashSlice hashf k)
  match stepLookup (ss.shard j) k with
  | none => none
  | some (s', r) => some (updShard ss j s', r.map (fun id => (j, id)))

/-- `SharedLRUCache::Release(handle)`: reads the key stored in the handle
itself (`HashSlice(handle->key)`)is, selects the shard from that key's hash,
and forwards the release there. -/
def sharedRelease (hashf : K → Nat) (ss : SharedLRUCache K V)
    (hdl : Fin kNumShards × Nat) : Option (SharedLRUCache K V) :=
  match afind (ss.shard hdl.1).heap hdl.2 with
  | none => none
  | some e =>
    let j := shardFin (HashSlice hashf e.key)
    match releaseId (ss.shard j) hdl.2 with
    | none => none
    | some s' => some (updShard ss j s')

/-- `SharedLRUCache::Erase`. -/
def sharedErase (hashf : K → Nat) (ss : SharedLRUCache K V) (k : K) :
    Option (SharedLRUCache K V) :=
  let j := shardFin (HashSlice hashf k)
  (stepErase (ss.shard j) k).map (updShard ss j)

/-- `SharedLRUCache::Prune`: prune every shard in order. -/
def pruneShards (ss : SharedLRUCache K V) :
    List (Fin kNumShards) → Option (SharedLRUCache K V)
  | [] => some ss
  | i :: rest =>
    match stepPrune (ss.shard i) with
    | none => none
    | some s' => pruneShards (updShard ss i s') rest

def sharedPrune (ss : SharedLRUCache K V) : Option (SharedLRUCache K V) :=
  pruneShards ss (List.finRange kNumShards)

/-- Public operations of the sharded cache; a release names a handle by
the shard its entry lives in and the id. -/
inductive SOp (K V : Type) where
  | insert (k : K) (v : V) (c : Nat)
  | lookup (k : K)
  | release (i : Fin kNumShards) (id : Nat)
  | erase (k : K)
  | prune

def sstep (hashf : K → Nat) (ss : SharedLRUCache K V) :
    SOp K V → Option (SharedLRUCache K V)
  | .insert k v c => (sharedInsert hashf ss k v c).map Prod.fst
  | .lookup k => (sharedLookup hashf ss k).map Prod.fst
  | .release i id => sharedRelease hashf ss (i, id)
  | .erase k => sharedErase hashf ss k
  | .prune => sharedPrune ss

def runFromS (hashf : K → Nat) (ss : SharedLRUCache K V) :
    List (SOp K V) → Option (SharedLRUCache K V)
  | [] => some ss
  | op :: ops =>
    match sstep hashf ss op with
    | none => none
    | some ss' => runFromS hashf ss' ops

def runTraceS (K V : Type) [DecidableEq K] (hashf : K → Nat) (c : Nat)
    (ops : List (SOp K V)) : Option (SharedLRUCache K V) :=
  runFromS hashf (sharedInit K V c) ops

/-- Router invariant: every shard is well-formed and only ever holds
entries whose key hashes to that shard. -/
def SWF (hashf : K → Nat) (ss : SharedLRUCache K V) : Prop :=
  ∀ i, WF (ss.shard i) ∧ registeredCharge (ss.shard i) ≤ (ss.shard i).capacity ∧
    ∀ q ∈ (ss.shard i).heap, shardFin (hashf q.2.key) = i

theorem updShard_self {ss : SharedLRUCache K V} {j : Fin kNumShards}
    {s' : CacheState K V} : (updShard ss j s').shard j = s' := by
  unfold updShard
  simp

theorem updShard_other {ss : SharedLRUCache K V} {j i : Fin kNumShards}
    {s' : CacheState K V} (h : i ≠ j) : (updShard ss j s').shard i = ss.shard i := by
  unfold updShard
  simp [h]

/-- The per-shard invariant survives replacing shard `j` by the result of
a step on shard `j`, provided the step only introduces keys hashing to `j`. -/
theorem SWF_upd {hashf : K → Nat} {ss : SharedLRUCache K V} {j : Fin kNumShards}
    {s' : CacheState K V} (hS : SWF hashf ss)
    (hw : WF s') (hreg : registeredCharge s' ≤ s'.capacity)
    (hkeys : ∀ q ∈ s'.heap, (∃ e, (q.1, e) ∈ (ss.shard j).heap ∧ e.key = q.2.key) ∨
      shardFin (hashf q.2.key) = j) :
    SWF hashf (updShard ss j s') := by
  intro i
  by_cases hij : i = j
  · subst hij
    rw [updShard_self]
    refine ⟨hw, hreg, ?_⟩
    intro q hq
    rcases hkeys q hq with ⟨e, he, hk⟩ | hk
    · rw [← hk]
      exact (hS i).2.2 (q.1, e) he
    · exact hk
  · rw [updShard_other hij]
    exact hS i

theorem sstep_SWF {hashf : K → Nat} {ss ss' : SharedLRUCache K V} {op : SOp K V}
    (hS : SWF hashf ss) (h : sstep hashf ss op = some ss') : SWF hashf ss' := by
  cases op with
  | insert k v c =>
    simp only [sstep, sharedInsert] at h
    cases hi : stepInsert (ss.shard (shardFin (HashSlice hashf k))) k v c with
    | none => rw [hi] at h; cases h
    | some p =>
      rw [hi] at h
      obtain ⟨s1, id⟩ := p
      simp only [Option.map_some'] at h
      obtain rfl : _ = ss' := Option.some.inj h
      have hstep : step (ss.shard (shardFin (HashSlice hashf k)))
          (Op.insert k v c) = some s1 := by
        simp only [step, hi, Option.map_some']
      refine SWF_upd hS (step_inv (hS _).1 (hS _).2.1 hstep).1
        (step_inv (hS _).1 (hS _).2.1 hstep).2.2 ?_
      intro q hq
      rcases step_heap_keys hstep q hq with hold | ⟨k0, v0, c0, hop, hk⟩
      · exact Or.inl hold
      · right
        injection hop with h1 h2 h3
        rw [hk, ← h1]
        rfl
  | lookup k =>
    simp only [sstep, sharedLookup] at h
    cases hi : stepLookup (ss.shard (shardFin (HashSlice hashf k))) k with
    | none => rw [hi] at h; cases h
    | some p =>
      rw [hi] at h
      obtain ⟨s1, r⟩ := p
      simp only [Option.map_some'] at h
      obtain rfl : _ = ss' := Option.some.inj h
      have hstep : step (ss.shard (shardFin (HashSlice hashf k)))
          (Op.lookup k) = some s1 := by
        simp only [step, hi, Option.map_some']
      refine SWF_upd hS (step_inv (hS _).1 (hS _).2.1 hstep).1
        (step_inv (hS _).1 (hS _).2.1 hstep).2.2 ?_
      intro q hq
      rcases step_heap_keys hstep q hq with hold | ⟨k0, v0, c0, hop, -⟩
      · exact Or.inl hold
      · cases hop
  | release i id =>
    simp only [sstep, sharedRelease] at h
    cases hf : afind (ss.shard i).heap id with
    | none => rw [hf] at h; cases h
    | some e =>
      simp only [hf] at h
      cases hr : releaseId (ss.shard (shardFin (HashSlice hashf e.key))) id with
      | none => rw [hr] at h; cases h
      | some s1 =>
        rw [hr] at h
        obtain rfl : _ = ss' := Option.some.inj h
        have hstep : step (ss.shard (shardFin (HashSlice hashf e.key)))
            (Op.release id) = some s1 := hr
        refine SWF_upd hS (step_inv (hS _).1 (hS _).2.1 hstep).1
          (step_inv (hS _).1 (hS _).2.1 hstep).2.2 ?_
        intro q hq
        rcases step_heap_keys hstep q hq with hold | ⟨k0, v0, c0, hop, -⟩
        · exact Or.inl hold
        · cases hop
  | erase k =>
    simp only [sstep, sharedErase] at h
    cases hi : stepErase (ss.shard (shardFin (HashSlice hashf k))) k with
    | none => rw [hi] at h; cases h
    | some s1 =>
      rw [hi] at h
      simp only [Option.map_some'] at h
      obtain rfl : _ = ss' := Option.some.inj h
      have hstep : step (ss.shard (shardFin (HashSlice hashf k)))
          (Op.erase k) = some s1 := hi
      refine SWF_upd hS (step_inv (hS _).1 (hS _).2.1 hstep).1
        (step_inv (hS _).1 (hS _).2.1 hstep).2.2 ?_
      intro q hq
      rcases step_heap_keys hstep q hq with hold | ⟨k0, v0, c0, hop, -⟩
      · exact Or.inl hold
      · cases hop
  | prune =>
    simp only [sstep, sharedPrune] at h
    have main : ∀ (l : List (Fin kNumShards)) (ss0 ss1 : SharedLRUCache K V),
        SWF hashf ss0 → pruneShards ss0 l = some ss1 → SWF hashf ss1 := by
      intro l
      induction l with
      | nil =>
        intro ss0 ss1 hS0 hp
        unfold pruneShards at hp
        obtain rfl : ss0 = ss1 := Option.some.inj hp
        exact hS0
      | cons i rest ih =>
        intro ss0 ss1 hS0 hp
        unfold pruneShards at hp
        cases hpr : stepPrune (ss0.shard i) with
        | none => rw [hpr] at hp; cases hp
        | some s1 =>
          rw [hpr] at hp
          have hstep : step (ss0.shard i) Op.prune = some s1 := hpr
          have hS1 : SWF hashf (updShard ss0 i s1) := by
            refine SWF_upd hS0 (step_inv (hS0 _).1 (hS0 _).2.1 hstep).1
              (step_inv (hS0 _).1 (hS0 _).2.1 hstep).2.2 ?_
            intro q hq
            rcases step_heap_keys hstep q hq with hold | ⟨k0, v0, c0, hop, -⟩
            · exact Or.inl hold
            · cases hop
          exact ih _ _ hS1 hp
    exact main _ ss ss' hS h

theorem sharedInit_SWF (hashf : K → Nat) (c : Nat) :
    SWF hashf (sharedInit K V c) := by
  intro i
  refine ⟨initState_wf _, Nat.zero_le _, ?_⟩
  intro q hq
  cases hq

theorem runFromS_SWF : ∀ (ops : List (SOp K V)) {hashf : K → Nat}
    {ss ss' : SharedLRUCache K V}, SWF hashf ss →
    runFromS hashf ss ops = some ss' → SWF hashf ss' := by
  intro ops
  induction ops with
  | nil =>
    intro hashf ss ss' hS h
    unfold runFromS at h
    obtain rfl : ss = ss' := Option.some.inj h
    exact hS
  | cons op rest ih =>
    intro hashf ss ss' hS h
    unfold runFromS at h
    cases hstep : sstep hashf ss op with
    | none => rw [hstep] at h; cases h
    | some ss1 =>
      rw [hstep] at h
      exact ih (sstep_SWF hS hstep) h

/-- Router reachability invariant. -/
theorem runTraceS_SWF {hashf : K → Nat} {c : Nat} {ops : List (SOp K V)}
    {ss : SharedLRUCache K V} (h : runTraceS K V hashf c ops = some ss) :
    SWF hashf ss :=
  runFromS_SWF ops (sharedInit_SWF hashf c) h

theorem WF_iff (s : CacheState K V) : WF s ↔
    (s.usage = heapCharges s.heap ∧
     (s.table.map Prod.fst).Nodup ∧
     (s.table.map Prod.snd).Nodup ∧
     s.lru.Nodup ∧
     (s.heap.map Prod.fst).Nodup ∧
     (∀ p ∈ s.table, p.2 ∈ s.lru) ∧
     (∀ p ∈ s.table, ∀ h, afind s.heap p.2 = some h → h.key = p.1) ∧
     (∀ q ∈ s.heap, 1 ≤ q.2.refs) ∧
     (∀ id ∈ s.lru, id < s.nextId) ∧
     (∀ q ∈ s.heap, q.1 < s.nextId) ∧
     (∀ id ∈ s.lru, ∀ h, afind s.heap id = some h →
       afind s.table h.key = some id)) := by
  constructor
  · intro w
    exact ⟨w.usage_eq, w.tkeys_nd, w.tids_nd, w.lru_nd, w.hids_nd, w.treg_lru,
      w.tkey_match, w.refs_pos, w.lru_lt, w.heap_lt, w.lru_reg⟩
  · intro h
    exact ⟨h.1, h.2.1, h.2.2.1, h.2.2.2.1, h.2.2.2.2.1, h.2.2.2.2.2.1,
      h.2.2.2.2.2.2.1, h.2.2.2.2.2.2.2.1, h.2.2.2.2.2.2.2.2.1,
      h.2.2.2.2.2.2.2.2.2.1, h.2.2.2.2.2.2.2.2.2.2⟩

instance {V : Type} {s : CacheState Nat V} : Decidable (WF s) :=
  decidable_of_iff _ (WF_iff s).symm

instance {V : Type} {g : GCacheState Nat V} : Decidable (GInv g) := by
  unfold GInv
  infer_instance

instance {V : Type} {hashf : Nat → Nat} {ss : SharedLRUCache Nat V} :
    Decidable (SWF hashf ss) := by
  unfold SWF
  infer_instance

theorem charge_le_heapCharges {hp : List (Nat × LRUHandle K V)} {id : Nat}
    {e : LRUHandle K V} (hnd : (hp.map Prod.fst).Nodup)
    (hf : afind hp id = some e) : e.charge ≤ heapCharges hp := by
  have := asum_aerase LRUHandle.charge hnd hf
  unfold heapCharges
  omega

/-! Concrete states used by the claim witnesses. -/

/-- A capacity-2 shard holding one registered entry with an outstanding
external lease, as produced by `Insert(0, 10, 1)`. -/
def c2s : CacheState Nat Nat := ⟨1, 2, [0], [(0, 0)], [(0, ⟨0, 10, 2, 1⟩)], 1⟩

/-- The state after overwriting key `0` with value `20` in `c2s`. -/
def c2s' : CacheState Nat Nat :=
  ⟨2, 2, [1], [(0, 1)], [(1, ⟨0, 20, 2, 1⟩), (0, ⟨0, 10, 1, 1⟩)], 2⟩

/-- A capacity-1 shard whose two inserted entries were both evicted from
the index while still externally pinned. -/
def c4s : CacheState Nat Nat :=
  ⟨2, 1, [], [], [(1, ⟨1, 6, 1, 1⟩), (0, ⟨0, 5, 1, 1⟩)], 2⟩

/-- C1.  The claim says `Prune` unregisters every entry whose only
remaining pin is the internal one from **both** the key index and the
ordered sequence, so that afterwards no unpinned entry remains in either
structure.  The code removes such an entry only from the key index and
frees it, leaving the freed id in the ordered sequence: after
`Insert(0); Release(handle); Prune()` the table and the heap are empty but
`lru_` still holds the dangling id.  This matches the defect the design
notes themselves flag, so the claim is right and the code is wrong. -/
theorem lru_cache_c1_prune_gap :
    ∃ s : CacheState Nat Nat,
      runTrace Nat Nat 2 [Op.insert 0 100 1, Op.release 0, Op.prune] = some s ∧
      s.table = [] ∧ s.heap = [] ∧ s.lru ≠ [] :=
  ⟨⟨0, 2, [0], [], [], 1⟩, rfl, rfl, rfl, by decide⟩

/-- C2, counterexample.  As stated, the claim promises that after
`Insert(k, v')` over an existing key, `Lookup(k)` immediately returns the
new value.  With capacity 1, re-inserting key `0` with charge 2 drives the
eviction loop until the sequence is empty, evicting the new entry itself:
the subsequent lookup returns not-found, refuting the unconditional
claim. -/
theorem lru_cache_c2_counterexample :
    ∃ s s' : CacheState Nat Nat,
      runTrace Nat Nat 1 [Op.insert 0 10 1] = some s ∧
      afind s.table 0 = some 0 ∧
      step s (Op.insert 0 20 2) = some s' ∧
      stepLookup s' 0 = some (s', none) :=
  ⟨⟨1, 1, [0], [(0, 0)], [(0, ⟨0, 10, 2, 1⟩)], 1⟩,
   ⟨3, 1, [], [], [(1, ⟨0, 20, 1, 2⟩), (0, ⟨0, 10, 1, 1⟩)], 2⟩,
   rfl, rfl, rfl, rfl⟩

/-- C2, amended.  `Insert(k, v')` over a registered key first unregisters
the old entry from both the sequence and the index and releases its
internal pin (the old handle survives, unreachable, exactly when it still
holds an external lease); afterwards `Lookup(k)` returns the new value
`v'` provided the insert's eviction loop did not empty the sequence (in
particular did not evict the new entry itself). -/
theorem lru_cache_c2_amended {K V : Type} [DecidableEq K] {s s' : CacheState K V}
    {k : K} {v' : V} {c n o : Nat} {oh : LRUHandle K V}
    (w : WF s) (hold : afind s.table k = some o) (hoh : afind s.heap o = some oh)
    (hi : stepInsert s k v' c = some (s', n)) :
    o ∉ s'.lru ∧ (∀ k0, afind s'.table k0 ≠ some o) ∧
    (2 ≤ oh.refs → afind s'.heap o = some { oh with refs := oh.refs - 1 }) ∧
    (oh.refs = 1 → afind s'.heap o = none) ∧
    (s'.lru ≠ [] →
      afind s'.table k = some n ∧ afind s'.heap n = some ⟨k, v', 2, c⟩ ∧
      ∃ s2, stepLookup s' k = some (s2, some n) ∧
        afind s2.heap n = some ⟨k, v', 3, c⟩) := by
  obtain ⟨-, -, -, -, -, hclause, -, hover, -, -⟩ := stepInsert_spec w hi
  obtain ⟨hnl, hnt, hlive, hdead⟩ := hover o oh hold hoh
  refine ⟨hnl, hnt, hlive, hdead, ?_⟩
  intro hne
  obtain ⟨hmem, htab, hheap⟩ := hclause hne
  refine ⟨htab, hheap, _, stepLookup_found htab hheap, ?_⟩
  exact afind_aset_self hheap

/-- C2, witness for the amended theorem at a concrete overwrite without
eviction. -/
theorem lru_cache_c2_witness :
    WF c2s ∧ afind c2s.table 0 = some 0 ∧
    afind c2s.heap 0 = some ⟨0, 10, 2, 1⟩ ∧
    stepInsert c2s 0 20 1 = some (c2s', 1) ∧
    (0 ∉ c2s'.lru ∧ (∀ k0, afind c2s'.table k0 ≠ some 0) ∧
      (2 ≤ (2 : Nat) → afind c2s'.heap 0 = some ⟨0, 10, 1, 1⟩) ∧
      ((2 : Nat) = 1 → afind c2s'.heap 0 = none) ∧
      (c2s'.lru ≠ [] →
        afind c2s'.table 0 = some 1 ∧ afind c2s'.heap 1 = some ⟨0, 20, 2, 1⟩ ∧
        ∃ s2, stepLookup c2s' 0 = some (s2, some 1) ∧
          afind s2.heap 1 = some ⟨0, 20, 3, 1⟩)) :=
  ⟨by decide, rfl, rfl, rfl,
   @lru_cache_c2_amended Nat Nat _ c2s c2s' 0 20 1 1 0 ⟨0, 10, 2, 1⟩
     (by decide) rfl rfl rfl⟩

/-- C3.  After every successfully completed operation sequence on a shard
of capacity `c`, the sum of charges of the currently registered
(key-reachable) entries is at most the shard's capacity, which is the
construction-time capacity.  (Transient excess exists only inside an
insert, before its eviction loop finishes — those intermediate states are
not post-operation states of the trace.) -/
theorem lru_cache_c3 {K V : Type} [DecidableEq K] {c : Nat}
    {ops : List (Op K V)} {s : CacheState K V}
    (h : runTrace K V c ops = some s) :
    registeredCharge s ≤ s.capacity ∧ s.capacity = c :=
  ⟨(runTrace_inv h).2.1, (runTrace_inv h).2.2⟩

/-- C3, witness at a concrete three-operation trace. -/
theorem lru_cache_c3_witness :
    runTrace Nat Nat 2 [Op.insert 0 100 1, Op.release 0, Op.insert 1 200 1] =
      some ⟨2, 2, [1, 0], [(1, 1), (0, 0)],
        [(1, ⟨1, 200, 2, 1⟩), (0, ⟨0, 100, 1, 1⟩)], 2⟩ ∧
    (registeredCharge (⟨2, 2, [1, 0], [(1, 1), (0, 0)],
        [(1, ⟨1, 200, 2, 1⟩), (0, ⟨0, 100, 1, 1⟩)], 2⟩ : CacheState Nat Nat) ≤ 2 ∧
      (2 : Nat) = 2) :=
  ⟨rfl, @lru_cache_c3 Nat Nat _ 2
    [Op.insert 0 100 1, Op.release 0, Op.insert 1 200 1]
    ⟨2, 2, [1, 0], [(1, 1), (0, 0)],
      [(1, ⟨1, 200, 2, 1⟩), (0, ⟨0, 100, 1, 1⟩)], 2⟩ rfl⟩

/-- C4.  A live entry that is no longer registered in the index is left
untouched (same key, value, reference count and charge) by every
operation other than a release of that very handle, and its charge stays
counted in `usage_`; releasing it when its pin count is 1 reclaims it and
subtracts its charge from usage at that moment, while a release that
leaves pins standing keeps both the memory and the charge. -/
theorem lru_cache_c4 {K V : Type} [DecidableEq K] {s s' : CacheState K V}
    {o : Nat} {oh : LRUHandle K V} {op : Op K V}
    (w : WF s) (hregs : registeredCharge s ≤ s.capacity)
    (hoh : afind s.heap o = some oh)
    (hunreg : o ∉ s.table.map Prod.snd)
    (hne : op ≠ Op.release o)
    (hstep : step s op = some s') :
    afind s'.heap o = some oh ∧ oh.charge ≤ s'.usage ∧
    (oh.refs = 1 → ∃ s'', releaseId s' o = some s'' ∧ afind s''.heap o = none ∧
      s''.usage = s'.usage - oh.charge) ∧
    (2 ≤ oh.refs → ∃ s'', releaseId s' o = some s'' ∧
      afind s''.heap o = some { oh with refs := oh.refs - 1 } ∧
      s''.usage = s'.usage) := by
  have hunreg' : ∀ k0, afind s.table k0 ≠ some o := by
    intro k0 hk0
    exact hunreg (List.mem_map.mpr ⟨(k0, o), afind_mem hk0, rfl⟩)
  have holru : o ∉ s.lru := by
    intro hmem
    exact hunreg' oh.key (w.lru_reg o hmem oh hoh)
  have holt : o < s.nextId := w.heap_lt (o, oh) (afind_mem hoh)
  have huntouched : afind s'.heap o = afind s.heap o := by
    cases op with
    | insert k v c =>
      simp only [step] at hstep
      cases hi : stepInsert s k v c with
      | none => rw [hi] at hstep; cases hstep
      | some p =>
        rw [hi] at hstep
        obtain ⟨s3, n⟩ := p
        simp only [Option.map_some'] at hstep
        obtain rfl : s3 = s' := Option.some.inj hstep
        exact ((stepInsert_spec w hi).2.2.2.2.2.2.1 o holru holt).1
    | lookup k =>
      simp only [step] at hstep
      cases hov : afind s.table k with
      | none =>
        rw [stepLookup_none hov] at hstep
        simp only [Option.map_some'] at hstep
        obtain rfl : s = s' := Option.some.inj hstep
        rfl
      | some id =>
        cases hh : afind s.heap id with
        | none => simp [stepLookup, hov, hh] at hstep
        | some hd =>
          rw [stepLookup_found hov hh] at hstep
          simp only [Option.map_some'] at hstep
          obtain rfl : _ = s' := Option.some.inj hstep
          have hne2 : o ≠ id := fun he => hunreg' k (he ▸ hov)
          exact afind_aset_ne hne2
    | release id =>
      have hne2 : o ≠ id := fun he => hne (by rw [he])
      exact (releaseId_op_spec w hstep).2.2.2.2.2.2 o hne2
    | erase k =>
      exact (stepErase_spec w hstep).2.2.2.2.1 o holru
    | prune =>
      exact (stepPrune_spec w hstep).2.2.2.2.2 o holru
  have w' : WF s' := (step_inv w hregs hstep).1
  have hlive' : afind s'.heap o = some oh := by
    rw [huntouched]
    exact hoh
  refine ⟨hlive', ?_, ?_, ?_⟩
  · rw [w'.usage_eq]
    exact charge_le_heapCharges w'.hids_nd hlive'
  · intro h1
    exact ⟨_, releaseId_dead hlive' h1, afind_aerase_self w'.hids_nd, rfl⟩
  · intro h2
    exact ⟨_, releaseId_live hlive' h2, afind_aset_self hlive', rfl⟩

/-- C4, witness: an evicted-but-pinned entry across a lookup of another
key, then its release. -/
theorem lru_cache_c4_witness :
    WF c4s ∧ registeredCharge c4s ≤ c4s.capacity ∧
    afind c4s.heap 0 = some ⟨0, 5, 1, 1⟩ ∧
    (0 : Nat) ∉ c4s.table.map Prod.snd ∧
    ((Op.lookup 1 : Op Nat Nat) ≠ Op.release 0) ∧
    step c4s (Op.lookup 1) = some c4s ∧
    (afind c4s.heap 0 = some ⟨0, 5, 1, 1⟩ ∧
      (⟨0, 5, 1, 1⟩ : LRUHandle Nat Nat).charge ≤ c4s.usage ∧
      ((⟨0, 5, 1, 1⟩ : LRUHandle Nat Nat).refs = 1 →
        ∃ s'', releaseId c4s 0 = some s'' ∧ afind s''.heap 0 = none ∧
          s''.usage = c4s.usage - 1) ∧
      (2 ≤ (⟨0, 5, 1, 1⟩ : LRUHandle Nat Nat).refs →
        ∃ s'', releaseId c4s 0 = some s'' ∧
          afind s''.heap 0 = some ⟨0, 5, 0, 1⟩ ∧ s''.usage = c4s.usage)) :=
  ⟨by decide, by decide, rfl, by decide, by decide, rfl,
   @lru_cache_c4 Nat Nat _ c4s c4s 0 ⟨0, 5, 1, 1⟩ (Op.lookup 1)
     (by decide) (by decide) rfl (by decide) (by decide) rfl⟩

/-- C7.  `Lookup` on an unregistered key returns not-found and leaves the
state completely unchanged; on a registered key it moves the entry to the
front of the sequence (unless already there), increments its reference
count by exactly one, returns its handle, and touches nothing else
(usage, capacity, table and allocator are unchanged). -/
theorem lru_cache_c7 {K V : Type} [DecidableEq K] {s : CacheState K V} {k : K} :
    (afind s.table k = none → stepLookup s k = some (s, none)) ∧
    (∀ id h, afind s.table k = some id → afind s.heap id = some h →
      stepLookup s k = some
        (⟨s.usage, s.capacity,
          if s.lru.head? = some id then s.lru else id :: s.lru.erase id,
          s.table, aset s.heap id { h with refs := h.refs + 1 }, s.nextId⟩,
         some id) ∧
      (if s.lru.head? = some id then s.lru
        else id :: s.lru.erase id).head? = some id) := by
  constructor
  · exact stepLookup_none
  · intro id h ht hh
    constructor
    · exact stepLookup_found ht hh
    · split
      next hhead => exact hhead
      next => rfl

/-- C7, witness: a miss and a hit on a concrete shard. -/
theorem lru_cache_c7_witness :
    (afind c2s'.table 7 = none ∧ stepLookup c2s' 7 = some (c2s', none)) ∧
    (afind c2s'.table 0 = some 1 ∧ afind c2s'.heap 1 = some ⟨0, 20, 2, 1⟩ ∧
      stepLookup c2s' 0 =
        some (⟨2, 2, [1], [(0, 1)],
          [(1, ⟨0, 20, 3, 1⟩), (0, ⟨0, 10, 1, 1⟩)], 2⟩, some 1) ∧
      ([1] : List Nat).head? = some 1) :=
  ⟨⟨rfl, (@lru_cache_c7 Nat Nat _ c2s' 7).1 rfl⟩,
   ⟨rfl, rfl,
    ((@lru_cache_c7 Nat Nat _ c2s' 0).2 1 ⟨0, 20, 2, 1⟩ rfl rfl).1,
    ((@lru_cache_c7 Nat Nat _ c2s' 0).2 1 ⟨0, 20, 2, 1⟩ rfl rfl).2⟩⟩

/-- C8.  `Release` fails fatally exactly when the handle is invalid (not a
live allocation) or its reference count is already zero; under the
precondition of a positive count it decrements by one, and when the count
reaches zero it subtracts the entry's charge from usage and destroys the
entry. -/
theorem lru_cache_c8 {K V : Type} [DecidableEq K] {s : CacheState K V}
    {id : Nat} :
    (releaseId s id = none ↔ afind s.heap id = none ∨
      ∃ h, afind s.heap id = some h ∧ h.refs = 0) ∧
    (∀ h, afind s.heap id = some h →
      (2 ≤ h.refs → releaseId s id =
        some { s with heap := aset s.heap id { h with refs := h.refs - 1 } }) ∧
      (h.refs = 1 → releaseId s id =
        some { s with
                 usage := s.usage - h.charge
                 heap := aerase s.heap id })) := by
  refine ⟨releaseId_none_iff, ?_⟩
  intro h hf
  exact ⟨fun h2 => releaseId_live hf h2, fun h1 => releaseId_dead hf h1⟩

/-- C8, witness: release of a live handle with two pins, and the fatal
cases on a dangling id. -/
theorem lru_cache_c8_witness :
    (releaseId c2s' 5 = none ↔ afind c2s'.heap 5 = none ∨
      ∃ h, afind c2s'.heap 5 = some h ∧ h.refs = 0) ∧
    (afind c2s'.heap 1 = some ⟨0, 20, 2, 1⟩ ∧
      (2 ≤ (2 : Nat) → releaseId c2s' 1 =
        some ⟨2, 2, [1], [(0, 1)],
          [(1, ⟨0, 20, 1, 1⟩), (0, ⟨0, 10, 1, 1⟩)], 2⟩) ∧
      ((2 : Nat) = 1 → releaseId c2s' 1 =
        some ⟨1, 2, [1], [(0, 1)], [(0, ⟨0, 10, 1, 1⟩)], 2⟩)) :=
  ⟨(@lru_cache_c8 Nat Nat _ c2s' 5).1,
   ⟨rfl, ((@lru_cache_c8 Nat Nat _ c2s' 1).2 ⟨0, 20, 2, 1⟩ rfl).1,
    ((@lru_cache_c8 Nat Nat _ c2s' 1).2 ⟨0, 20, 2, 1⟩ rfl).2⟩⟩

/-- The state after the C9 scenario inserts A, B, C with prompt releases
of the A and B leases. -/
def c9sABC : CacheState Nat Nat :=
  ⟨2, 2, [2, 1], [(2, 2), (1, 1)],
    [(2, ⟨2, 300, 2, 1⟩), (1, ⟨1, 200, 1, 1⟩)], 3⟩

set_option maxHeartbeats 1600000 in
/-- C9.  The capacity-2 scenario (each insert's lease released promptly,
as the pin discipline requires): after inserting A and B usage is 2 and
both are reachable; inserting C evicts A, the least recently used, leaving
usage 2, with lookups finding B and C but not A. -/
theorem lru_cache_c9 :
    runTrace Nat Nat 2 [Op.insert 0 100 1, Op.release 0,
        Op.insert 1 200 1, Op.release 1] =
      some ⟨2, 2, [1, 0], [(1, 1), (0, 0)],
        [(1, ⟨1, 200, 1, 1⟩), (0, ⟨0, 100, 1, 1⟩)], 2⟩ ∧
    runTrace Nat Nat 2 [Op.insert 0 100 1, Op.release 0,
        Op.insert 1 200 1, Op.release 1, Op.insert 2 300 1] = some c9sABC ∧
    c9sABC.usage = 2 ∧
    stepLookup c9sABC 0 = some (c9sABC, none) ∧
    (stepLookup c9sABC 1).map (fun p => p.2) = some (some 1) ∧
    (stepLookup c9sABC 2).map (fun p => p.2) = some (some 2) :=
  ⟨rfl, rfl, rfl, rfl, rfl, rfl⟩

/-- C10.  Inserting with a charge strictly above the shard's capacity
drives the eviction loop until the sequence is empty, unregistering the
new entry itself: afterwards every lookup returns not-found, yet the
returned handle still holds the value with one pin standing and its
charge still counted in usage, until it is released — at which point the
entry is destroyed and the charge subtracted. -/
theorem lru_cache_c10 {K V : Type} [DecidableEq K] {s s' : CacheState K V}
    {k : K} {v : V} {c n : Nat}
    (w : WF s)
    (hnopin : ∀ q ∈ s.heap, q.2.refs = 1 ∧ afind s.table q.2.key = some q.1)
    (hc : s.capacity < c)
    (hi : stepInsert s k v c = some (s', n)) :
    s'.lru = [] ∧ s'.table = [] ∧
    (∀ k0, stepLookup s' k0 = some (s', none)) ∧
    afind s'.heap n = some ⟨k, v, 1, c⟩ ∧
    c ≤ s'.usage ∧
    (∃ s'', releaseId s' n = some s'' ∧ afind s''.heap n = none ∧
      s''.usage = s'.usage - c) := by
  obtain ⟨hn, w', hcap, hnext, hpost, hclause, -, -, -, hempty⟩ := stepInsert_spec w hi
  have hnil : s'.lru = [] := by
    by_contra hne
    obtain ⟨-, -, hheap⟩ := hclause hne
    have hcle : c ≤ s'.usage := by
      rw [w'.usage_eq]
      exact charge_le_heapCharges (e := ⟨k, v, 2, c⟩) w'.hids_nd hheap
    rcases hpost with hle | hnil2
    · rw [hcap] at hle
      omega
    · exact hne hnil2
  have htnil : s'.table = [] := table_nil_of_lru_nil w' hnil
  have hfree : afind s'.heap n = some ⟨k, v, 1, c⟩ := hempty hnil
  have hcle : c ≤ s'.usage := by
    rw [w'.usage_eq]
    exact charge_le_heapCharges (e := ⟨k, v, 1, c⟩) w'.hids_nd hfree
  refine ⟨hnil, htnil, ?_, hfree, hcle, ?_⟩
  · intro k0
    apply stepLookup_none
    rw [htnil]
    rfl
  · exact ⟨_, releaseId_dead hfree rfl, afind_aerase_self w'.hids_nd, rfl⟩

/-- The shard state after inserting charge 3 into an empty capacity-2
shard. -/
def c10out : CacheState Nat Nat := ⟨3, 2, [], [], [(0, ⟨7, 42, 1, 3⟩)], 1⟩

/-- C10, witness: inserting charge 3 into an empty capacity-2 shard. -/
theorem lru_cache_c10_witness :
    WF (initState Nat Nat 2) ∧
    (∀ q ∈ (initState Nat Nat 2).heap, q.2.refs = 1 ∧
      afind (initState Nat Nat 2).table q.2.key = some q.1) ∧
    (initState Nat Nat 2).capacity < 3 ∧
    stepInsert (initState Nat Nat 2) 7 42 3 = some (c10out, 0) ∧
    (c10out.lru = [] ∧ c10out.table = [] ∧
     (∀ k0, stepLookup c10out k0 = some (c10out, none)) ∧
     afind c10out.heap 0 = some ⟨7, 42, 1, 3⟩ ∧
     3 ≤ c10out.usage ∧
     (∃ s'', releaseId c10out 0 = some s'' ∧ afind s''.heap 0 = none ∧
       s''.usage = c10out.usage - 3)) :=
  ⟨by decide, by decide, by decide, rfl,
   @lru_cache_c10 Nat Nat _ (initState Nat Nat 2) c10out 7 42 3 0
     (by decide) (by decide) (by decide) rfl⟩

/-- A ghost-instrumented shard mid-eviction: usage 5 over capacity 2, the
ordered sequence `[1, 0]` strictly sorted by last-touch stamp (id 1
touched at time 2, id 0 at time 1), plus an unregistered pinned handle. -/
def c5g : GCacheState Nat Nat :=
  ⟨⟨5, 2, [1, 0], [(0, 0), (1, 1)],
    [(0, ⟨0, 10, 1, 1⟩), (1, ⟨1, 11, 1, 1⟩), (2, ⟨2, 12, 1, 3⟩)], 3⟩,
   fun i => if i = 0 then 1 else if i = 1 then 2 else 0, 3⟩

/-- C5.  Recency order: (1) every ghost trace (stamping each id on insert
and on successful lookup) reaches a state whose ordered sequence is
strictly sorted by last-touch stamp, most recent first; (2) in any such
over-capacity state the entry the eviction loop removes next — the back
`b` of the sequence — has a strictly smaller stamp than every other
member, i.e. it is the least recently touched; the front (most recently
touched) entry survives the body whenever another member exists, and the
body removes exactly `b`. -/
theorem lru_cache_c5 {K V : Type} [DecidableEq K] :
    (∀ (c : Nat) (ops : List (Op K V)) (g : GCacheState K V),
      runTraceG K V c ops = some g → WF g.st ∧ GInv g) ∧
    (∀ (g : GCacheState K V) (b : Nat), WF g.st → GInv g →
      g.st.capacity < g.st.usage → g.st.lru.getLast? = some b →
      (∀ id ∈ g.st.lru, id ≠ b → g.stamp b < g.stamp id) ∧
      (∀ m, g.st.lru.head? = some m → m ≠ b → m ∈ g.st.lru.dropLast) ∧
      (∀ s1, evictBody g.st = some s1 →
        s1.lru = g.st.lru.dropLast ∧ b ∉ s1.lru)) := by
  constructor
  · intro c ops g h
    exact runTraceG_inv h
  · intro g b w hG hcap hb
    have hne : g.st.lru ≠ [] := by
      intro h0
      rw [h0] at hb
      cases hb
    have hbl : g.st.lru.getLast hne = b := by
      rw [List.getLast?_eq_getLast _ hne] at hb
      exact Option.some.inj hb
    have hdec : g.st.lru.dropLast ++ [b] = g.st.lru := by
      rw [← hbl]
      exact List.dropLast_append_getLast hne
    have hp := hG.1
    rw [← hdec] at hp
    obtain ⟨-, -, hcross⟩ := List.pairwise_append.mp hp
    have hmin : ∀ id ∈ g.st.lru, id ≠ b → g.stamp b < g.stamp id := by
      intro id hid hne2
      rw [← hdec] at hid
      rcases List.mem_append.mp hid with h1 | h2
      · exact hcross id h1 b (List.mem_singleton_self b)
      · exact absurd (List.mem_singleton.mp h2) hne2
    have hnd := w.lru_nd
    rw [← hdec] at hnd
    have hbnot : b ∉ g.st.lru.dropLast := by
      intro hmem
      exact (List.nodup_append.mp hnd).2.2 hmem (List.mem_singleton_self b)
    refine ⟨hmin, ?_, ?_⟩
    · intro m hm hmne
      have hmem : m ∈ g.st.lru := by
        cases hll : g.st.lru with
        | nil => rw [hll] at hm; cases hm
        | cons a t =>
          rw [hll] at hm
          simp only [List.head?] at hm
          obtain rfl : a = m := Option.some.inj hm
          exact hll ▸ List.mem_cons_self a t
      rw [← hdec] at hmem
      rcases List.mem_append.mp hmem with h1 | h2
      · exact h1
      · exact absurd (List.mem_singleton.mp h2) hmne
    · intro s1 hs1
      unfold evictBody at hs1
      simp only [hb] at hs1
      cases hf : afind g.st.heap b with
      | none => simp only [hf] at hs1; cases hs1
      | some e =>
        simp only [hf] at hs1
        have hl1 := releaseId_lru hs1
        rw [hl1]
        exact ⟨rfl, hbnot⟩

/-- C5, witness: a three-operation ghost trace, and the minimal-stamp
eviction facts at the concrete over-capacity state `c5g` (back id 0 has
stamp 1, the other member id 1 has stamp 2). -/
theorem lru_cache_c5_witness :
    (∃ g : GCacheState Nat Nat,
      runTraceG Nat Nat 2 [Op.insert 0 10 1, Op.insert 1 11 1, Op.lookup 0] =
        some g ∧ WF g.st ∧ GInv g) ∧
    ((∀ id ∈ c5g.st.lru, id ≠ 0 → c5g.stamp 0 < c5g.stamp id) ∧
     (∀ m, c5g.st.lru.head? = some m → m ≠ 0 → m ∈ c5g.st.lru.dropLast) ∧
     (∀ s1, evictBody c5g.st = some s1 →
       s1.lru = c5g.st.lru.dropLast ∧ 0 ∉ s1.lru)) := by
  refine ⟨⟨_, rfl, ?_⟩, ?_⟩
  · exact (@lru_cache_c5 Nat Nat _).1 2
      [Op.insert 0 10 1, Op.insert 1 11 1, Op.lookup 0] _ rfl
  · exact (@lru_cache_c5 Nat Nat _).2 c5g 0 (by decide) (by decide)
      (by decide) rfl

/-! Concrete router states for the C6 witness. -/

/-- A freshly built router of total capacity 32 (per-shard capacity 2). -/
def c6ss : SharedLRUCache Nat Nat := sharedInit Nat Nat 32

/-- Shard 5 after `Insert(5, 99, 1)` routed there by the identity hash. -/
def c6sh : CacheState Nat Nat := ⟨1, 2, [0], [(5, 0)], [(0, ⟨5, 99, 2, 1⟩)], 1⟩

def c6ssI : SharedLRUCache Nat Nat := updShard c6ss (shardFin 5) c6sh

/-- Shard 5 of `c6ssI` after `Lookup(5)` (one more pin). -/
def c6shL : CacheState Nat Nat := ⟨1, 2, [0], [(5, 0)], [(0, ⟨5, 99, 3, 1⟩)], 1⟩

def c6ssL : SharedLRUCache Nat Nat := updShard c6ssI (shardFin 5) c6shL

/-- Shard 5 of `c6ssI` after `Erase(5)` (unregistered, handle pinned). -/
def c6shE : CacheState Nat Nat := ⟨1, 2, [], [], [(0, ⟨5, 99, 1, 1⟩)], 1⟩

def c6ssE : SharedLRUCache Nat Nat := updShard c6ssI (shardFin 5) c6shE

/-- Shard 5 of `c6ssI` after releasing the insert handle. -/
def c6shR : CacheState Nat Nat := ⟨1, 2, [0], [(5, 0)], [(0, ⟨5, 99, 1, 1⟩)], 1⟩

def c6ssR : SharedLRUCache Nat Nat := updShard c6ssI (shardFin 5) c6shR

/-- C6.  The router: there are 16 shards; construction with total
capacity `c` gives every shard capacity `(c + 16 - 1) / 16`, which is
exactly the ceiling of `c / 16` (it is the least `m` with
`c ≤ 16 * m`).  Insert, Lookup and Erase each forward to the single shard
indexed by `hash(key) % 16` and leave every other shard untouched, and
the handle they return names that shard.  Release reads the key stored in
the handle itself, and under the hash-home invariant that key leads back
to the very shard the handle lives in; the hash-home invariant holds for
every state a trace of router operations can reach. -/
theorem lru_cache_c6 {K V : Type} [DecidableEq K] :
    kNumShards = 16 ∧
    (∀ (c : Nat) (i : Fin kNumShards),
      ((sharedInit K V c).shard i).capacity = (c + kNumShards - 1) / kNumShards) ∧
    (∀ c : Nat, c ≤ kNumShards * ((c + kNumShards - 1) / kNumShards) ∧
      ∀ m, c ≤ kNumShards * m → (c + kNumShards - 1) / kNumShards ≤ m) ∧
    (∀ (hashf : K → Nat) (ss ss' : SharedLRUCache K V) (k : K) (v : V)
      (c : Nat) (hdl : Fin kNumShards × Nat),
      sharedInsert hashf ss k v c = some (ss', hdl) →
      (hdl.1 : Nat) = HashSlice hashf k % kNumShards ∧
      stepInsert (ss.shard hdl.1) k v c = some (ss'.shard hdl.1, hdl.2) ∧
      ∀ i, i ≠ hdl.1 → ss'.shard i = ss.shard i) ∧
    (∀ (hashf : K → Nat) (ss ss' : SharedLRUCache K V) (k : K)
      (r : Option (Fin kNumShards × Nat)),
      sharedLookup hashf ss k = some (ss', r) →
      (∀ hdl, r = some hdl → (hdl.1 : Nat) = HashSlice hashf k % kNumShards) ∧
      stepLookup (ss.shard (shardFin (HashSlice hashf k))) k =
        some (ss'.shard (shardFin (HashSlice hashf k)), r.map (fun q => q.2)) ∧
      ∀ i, i ≠ shardFin (HashSlice hashf k) → ss'.shard i = ss.shard i) ∧
    (∀ (hashf : K → Nat) (ss ss' : SharedLRUCache K V) (k : K),
      sharedErase hashf ss k = some ss' →
      stepErase (ss.shard (shardFin (HashSlice hashf k))) k =
        some (ss'.shard (shardFin (HashSlice hashf k))) ∧
      ∀ i, i ≠ shardFin (HashSlice hashf k) → ss'.shard i = ss.shard i) ∧
    (∀ (hashf : K → Nat) (ss ss' : SharedLRUCache K V)
      (hdl : Fin kNumShards × Nat),
      SWF hashf ss → sharedRelease hashf ss hdl = some ss' →
      ∃ e, afind (ss.shard hdl.1).heap hdl.2 = some e ∧
        shardFin (HashSlice hashf e.key) = hdl.1 ∧
        releaseId (ss.shard hdl.1) hdl.2 = some (ss'.shard hdl.1) ∧
        ∀ i, i ≠ hdl.1 → ss'.shard i = ss.shard i) ∧
    (∀ (hashf : K → Nat) (c : Nat) (ops : List (SOp K V))
      (ss : SharedLRUCache K V),
      runTraceS K V hashf c ops = some ss → SWF hashf ss) := by
  refine ⟨rfl, fun c i => rfl, ?_, ?_, ?_, ?_, ?_, ?_⟩
  · intro c
    rw [kNumShards_eq]
    constructor
    · omega
    · intro m hm
      omega
  · intro hashf ss ss' k v c hdl h
    simp only [sharedInsert] at h
    cases hi : stepInsert (ss.shard (shardFin (HashSlice hashf k))) k v c with
    | none => rw [hi] at h; cases h
    | some p =>
      rw [hi] at h
      obtain ⟨s1, id⟩ := p
      have h2 := Option.some.inj h
      have hss : updShard ss (shardFin (HashSlice hashf k)) s1 = ss' :=
        congrArg Prod.fst h2
      have hdl2 : (shardFin (HashSlice hashf k), id) = hdl :=
        congrArg Prod.snd h2
      subst hss
      subst hdl2
      refine ⟨rfl, ?_, fun i hi2 => updShard_other hi2⟩
      rw [updShard_self]
      exact hi
  · intro hashf ss ss' k r h
    simp only [sharedLookup] at h
    cases hi : stepLookup (ss.shard (shardFin (HashSlice hashf k))) k with
    | none => rw [hi] at h; cases h
    | some p =>
      rw [hi] at h
      obtain ⟨s1, r0⟩ := p
      have h2 := Option.some.inj h
      have hss : updShard ss (shardFin (HashSlice hashf k)) s1 = ss' :=
        congrArg Prod.fst h2
      have hr : r0.map (fun id => (shardFin (HashSlice hashf k), id)) = r :=
        congrArg Prod.snd h2
      subst hss
      subst hr
      refine ⟨?_, ?_, fun i hi2 => updShard_other hi2⟩
      · intro hdl hh
        cases r0 with
        | none => cases hh
        | some id =>
          obtain rfl : _ = hdl := Option.some.inj hh
          rfl
      · rw [updShard_self]
        have hmap : (r0.map
            (fun id => (shardFin (HashSlice hashf k), id))).map
            (fun q => q.2) = r0 := by
          cases r0 with
          | none => rfl
          | some id => rfl
        rw [hmap]
  · intro hashf ss ss' k h
    simp only [sharedErase] at h
    cases hi : stepErase (ss.shard (shardFin (HashSlice hashf k))) k with
    | none => rw [hi] at h; cases h
    | some s1 =>
      rw [hi] at h
      simp only [Option.map_some'] at h
      obtain rfl : _ = ss' := Option.some.inj h
      refine ⟨?_, fun i hi2 => updShard_other hi2⟩
      rw [updShard_self]
  · intro hashf ss ss' hdl hS h
    simp only [sharedRelease] at h
    cases hf : afind (ss.shard hdl.1).heap hdl.2 with
    | none => rw [hf] at h; cases h
    | some e =>
      simp only [hf] at h
      have hj : shardFin (HashSlice hashf e.key) = hdl.1 :=
        (hS hdl.1).2.2 (hdl.2, e) (afind_mem hf)
      rw [hj] at h
      cases hr : releaseId (ss.shard hdl.1) hdl.2 with
      | none => rw [hr] at h; cases h
      | some s1 =>
        rw [hr] at h
        obtain rfl : _ = ss' := Option.some.inj h
        refine ⟨e, rfl, hj, ?_, fun i hi2 => updShard_other hi2⟩
        rw [updShard_self]
  · intro hashf c ops ss h
    exact runTraceS_SWF h

/-- C6, witness: the identity hash on `Nat` keys, key 5 living in shard
5 of a 16-shard router of total capacity 32; insert, lookup, erase and
release all hit shard 5 only, and a one-operation trace keeps the
hash-home invariant.  Capacity 33 rounds up to 3 per shard. -/
theorem lru_cache_c6_witness :
    (kNumShards = 16 ∧
     ((sharedInit Nat Nat 33).shard (shardFin 0)).capacity =
       (33 + kNumShards - 1) / kNumShards ∧
     ((sharedInit Nat Nat 33).shard (shardFin 0)).capacity = 3 ∧
     (33 ≤ kNumShards * ((33 + kNumShards - 1) / kNumShards) ∧
      ∀ m, 33 ≤ kNumShards * m → (33 + kNumShards - 1) / kNumShards ≤ m)) ∧
    (sharedInsert (fun n => n) c6ss 5 99 1 = some (c6ssI, (shardFin 5, 0)) ∧
     ((shardFin 5 : Fin kNumShards) : Nat) =
       HashSlice (fun n => n) 5 % kNumShards ∧
     stepInsert (c6ss.shard (shardFin 5)) 5 99 1 =
       some (c6ssI.shard (shardFin 5), 0) ∧
     (∀ i, i ≠ shardFin 5 → c6ssI.shard i = c6ss.shard i)) ∧
    (sharedLookup (fun n => n) c6ssI 5 = some (c6ssL, some (shardFin 5, 0)) ∧
     stepLookup (c6ssI.shard (shardFin 5)) 5 =
       some (c6ssL.shard (shardFin 5), some 0) ∧
     (∀ i, i ≠ shardFin 5 → c6ssL.shard i = c6ssI.shard i)) ∧
    (sharedErase (fun n => n) c6ssI 5 = some c6ssE ∧
     stepErase (c6ssI.shard (shardFin 5)) 5 = some (c6ssE.shard (shardFin 5)) ∧
     (∀ i, i ≠ shardFin 5 → c6ssE.shard i = c6ssI.shard i)) ∧
    (SWF (fun n => n) c6ssI ∧
     sharedRelease (fun n => n) c6ssI (shardFin 5, 0) = some c6ssR ∧
     (∃ e, afind (c6ssI.shard (shardFin 5)).heap 0 = some e ∧
       shardFin (HashSlice (fun n => n) e.key) = shardFin 5 ∧
       releaseId (c6ssI.shard (shardFin 5)) 0 = some (c6ssR.shard (shardFin 5)) ∧
       ∀ i, i ≠ shardFin 5 → c6ssR.shard i = c6ssI.shard i)) ∧
    (runTraceS Nat Nat (fun n => n) 32 [SOp.insert 5 99 1] = some c6ssI ∧
     SWF (fun n => n) c6ssI) := by
  refine ⟨⟨(@lru_cache_c6 Nat Nat _).1,
      (@lru_cache_c6 Nat Nat _).2.1 33 (shardFin 0), rfl,
      (@lru_cache_c6 Nat Nat _).2.2.1 33⟩, ⟨rfl, ?_⟩, ⟨rfl, ?_⟩, ⟨rfl, ?_⟩,
    ⟨by decide, rfl, ?_⟩, rfl, (@lru_cache_c6 Nat Nat _).2.2.2.2.2.2.2
      (fun n => n) 32 [SOp.insert 5 99 1] c6ssI rfl⟩
  · exact ((@lru_cache_c6 Nat Nat _).2.2.2.1 (fun n => n) c6ss c6ssI 5 99 1
      (shardFin 5, 0) rfl).1.symm ▸
      ((@lru_cache_c6 Nat Nat _).2.2.2.1 (fun n => n) c6ss c6ssI 5 99 1
        (shardFin 5, 0) rfl)
  · have h := (@lru_cache_c6 Nat Nat _).2.2.2.2.1 (fun n => n) c6ssI c6ssL 5
      (some (shardFin 5, 0)) rfl
    exact ⟨h.2.1, h.2.2⟩
  · exact (@lru_cache_c6 Nat Nat _).2.2.2.2.2.1 (fun n => n) c6ssI c6ssE 5 rfl
  · exact (@lru_cache_c6 Nat Nat _).2.2.2.2.2.2.1 (fun n => n) c6ssI c6ssR
      (shardFin 5, 0) (by decide) rfl

end LRUModel
